import Mathlib

/-
Verification of the metadata aggregation and conflict-resolution engine
(src/shelfr/metadata/aggregator.py and src/shelfr/metadata/providers/types.py).

The Python code is embedded shallowly:

* Python `Any` values are modelled by the inductive type `Value`, closed under
  exactly the shapes the aggregator inspects: `None`, strings, lists, and an
  opaque remainder (`vother`, tagged by a number so distinct foreign values
  stay distinct).
* Python `float` confidences are modelled by `Rat`.
* Python dicts (insertion ordered, unique keys) are modelled by association
  lists together with `dictInsert` (update in place when the key exists,
  append otherwise), `dictLookup` and `dictMem`.
* `list.sort(key=...)` (a stable sort by a lexicographic key tuple) is
  modelled by the stable insertion sort `sortLE` with a boolean comparator
  that is the lexicographic order on the same key tuple; a stable sort by a
  total preorder has a unique output, so any stable sort is the same
  function as the stable sort of the source.
* `async` scheduling: Stage 1 gathers all local providers and processes their
  results in list order (the source gathers with `asyncio.gather`, which
  returns results in argument order); Stage 2 is a sequential loop, modelled
  by the recursive function `stage2` which also records the invocation trace.
* A provider whose `fetch` raises is modelled by the environment returning
  `FetchOutcome.raised msg`; `safeFetch` embeds `_safe_fetch`.
* The provider list handed to `fetchAll` is the already-resolved candidate
  list (the registry, which resolves it, is not part of the aggregation
  logic being verified; every claim is about post-resolution behaviour).
-/

/-- Model of a Python runtime value as the aggregator observes it: `None`,
a string, a list, or any other value (opaque, tagged to keep distinct
values distinct). -/
inductive Value where
  | vnone : Value
  | vstr : String → Value
  | vlist : List Value → Value
  | vother : Nat → Value

mutual

def Value.beq : Value → Value → Bool
  | .vnone, .vnone => true
  | .vstr a, .vstr b => a == b
  | .vlist a, .vlist b => Value.listBeq a b
  | .vother a, .vother b => a == b
  | _, _ => false

def Value.listBeq : List Value → List Value → Bool
  | [], [] => true
  | x :: xs, y :: ys => Value.beq x y && Value.listBeq xs ys
  | _, _ => false

end

mutual

theorem Value.beq_iff : ∀ a b : Value, Value.beq a b = true ↔ a = b
  | .vnone, .vnone => by simp [Value.beq]
  | .vnone, .vstr _ => by simp [Value.beq]
  | .vnone, .vlist _ => by simp [Value.beq]
  | .vnone, .vother _ => by simp [Value.beq]
  | .vstr _, .vnone => by simp [Value.beq]
  | .vstr _, .vstr _ => by simp [Value.beq]
  | .vstr _, .vlist _ => by simp [Value.beq]
  | .vstr _, .vother _ => by simp [Value.beq]
  | .vlist _, .vnone => by simp [Value.beq]
  | .vlist _, .vstr _ => by simp [Value.beq]
  | .vlist a, .vlist b => by simp [Value.beq, Value.listBeq_iff a b]
  | .vlist _, .vother _ => by simp [Value.beq]
  | .vother _, .vnone => by simp [Value.beq]
  | .vother _, .vstr _ => by simp [Value.beq]
  | .vother _, .vlist _ => by simp [Value.beq]
  | .vother _, .vother _ => by simp [Value.beq]

theorem Value.listBeq_iff : ∀ a b : List Value, Value.listBeq a b = true ↔ a = b
  | [], [] => by simp [Value.listBeq]
  | [], _ :: _ => by simp [Value.listBeq]
  | _ :: _, [] => by simp [Value.listBeq]
  | x :: xs, y :: ys => by
      simp [Value.listBeq, Value.beq_iff x y, Value.listBeq_iff xs ys]

end

instance : DecidableEq Value := fun a b =>
  decidable_of_iff (Value.beq a b = true) (Value.beq_iff a b)

/-- Embeds MetadataAggregator._is_empty:
value is None or value equals the empty string or the empty list. -/
def isEmptyValue (v : Value) : Bool :=
  v == Value.vnone || v == Value.vstr "" || v == Value.vlist []

/-- Embeds MetadataAggregator._value_quality. The source takes the field name
as a parameter and ignores it. -/
def valueQuality (_fieldName : String) (v : Value) : Nat :=
  match v with
  | .vnone => 0
  | .vstr s => s.length
  | .vlist l => l.length
  | .vother _ => 1

/-- A metadata provider as the aggregator sees it: the attributes of the
MetadataProvider protocol (providers/base.py). The fetch behaviour itself is
supplied separately as an environment function. -/
structure Provider where
  name : String
  priority : Int
  kind : String
  is_override : Bool

/-- Embeds ProviderResult (providers/types.py). `fields` and `confidence` are
insertion-ordered dicts, modelled as association lists. -/
structure ProviderResult where
  provider : String
  success : Bool
  fields : List (String × Value) := []
  confidence : List (String × Rat) := []
  error : Option String := none
  cached : Bool := false
  cacheAgeSeconds : Option Int := none

/-- Embeds FieldConflict (aggregator.py). -/
structure FieldConflict where
  field : String
  values : List (String × Value)
  resolved_value : Value
  resolution_reason : String

/-- Embeds AggregatedResult (aggregator.py). -/
structure AggregatedResult where
  fields : List (String × Value) := []
  sources : List (String × String) := []
  conflicts : List FieldConflict := []
  missing : List String := []
  errors : List (String × String) := []

/-- Python dict assignment d[k] = v: replace in place when the key exists,
append otherwise. -/
def dictInsert {α : Type} (d : List (String × α)) (k : String) (v : α) :
    List (String × α) :=
  if d.any (fun kv => kv.1 == k) then
    d.map (fun kv => if kv.1 == k then (kv.1, v) else kv)
  else d ++ [(k, v)]

/-- Python dict lookup (unique keys by construction, so the first hit is the
entry). -/
def dictLookup {α : Type} (d : List (String × α)) (k : String) : Option α :=
  (d.find? (fun kv => kv.1 == k)).map (fun kv => kv.2)

/-- Python `k in d`. -/
def dictMem {α : Type} (d : List (String × α)) (k : String) : Bool :=
  d.any (fun kv => kv.1 == k)

/-- Embeds ALL_FIELDS: the runtime set of the canonical FieldName vocabulary
(providers/types.py), in declaration order. -/
def ALL_FIELDS : List String :=
  ["title", "subtitle", "authors", "narrators", "publisher", "language",
   "release_date", "series_name", "series_position", "genres", "summary",
   "description", "cover_url", "format_type", "literature_type", "is_adult",
   "copyright", "rating", "isbn",
   "chapters", "duration_seconds", "codec", "bitrate", "channels", "container"]

/-- A surviving candidate tuple (provider, value, confidence, priority) as
collected by MetadataAggregator._merge. -/
structure Cand where
  provider : String
  value : Value
  confidence : Rat
  priority : Int

instance : DecidableEq Cand := fun a b =>
  decidable_of_iff
    (a.provider = b.provider ∧ a.value = b.value ∧
      a.confidence = b.confidence ∧ a.priority = b.priority)
    (by cases a; cases b; simp)

/-- Embeds the dict comprehension building provider_map:
later registrations of the same name win. -/
def providerMapGet (ps : List Provider) (name : String) : Option Provider :=
  (ps.filter (fun p => p.name == name)).getLast?

/-- Embeds MetadataAggregator._should_skip_empty. -/
def shouldSkipEmpty (p : Provider) (v : Value) : Bool :=
  if p.is_override then false else isEmptyValue v

/-- Embeds result.confidence.get(field_name, 1.0). -/
def confGet (d : List (String × Rat)) (k : String) : Rat :=
  match dictLookup d k with
  | some c => c
  | none => 1

/-- Stable insert for sortLE: place the new element before the first list
element it compares le to (in particular before every element tied with it,
which entered the list later than it did in the original order). -/
def insertLE {α : Type} (le : α → α → Bool) (a : α) : List α → List α
  | [] => [a]
  | b :: bs => if le a b then a :: b :: bs else b :: insertLE le a bs

/-- A stable sort by the boolean comparator le. Python list.sort is stable,
and a stable sort by a total preorder has a unique output, so this insertion
sort computes exactly what the source sort computes. -/
def sortLE {α : Type} (le : α → α → Bool) : List α → List α
  | [] => []
  | a :: as => insertLE le a (sortLE le as)

/-- Python string comparison: lexicographic on code points. -/
def charsLE : List Char → List Char → Bool
  | [], _ => true
  | _ :: _, [] => false
  | x :: xs, y :: ys =>
      if x < y then true else if y < x then false else charsLE xs ys

def strLE (a b : String) : Bool := charsLE a.data b.data

/-- The comparator of the confidence strategy: lexicographic comparison of the
Python sort key (-confidence, priority, -quality, provider name). -/
def confKeyLE (fieldName : String) (a b : Cand) : Bool :=
  if a.confidence ≠ b.confidence then decide (b.confidence < a.confidence)
  else if a.priority ≠ b.priority then decide (a.priority < b.priority)
  else if valueQuality fieldName a.value ≠ valueQuality fieldName b.value then
    decide (valueQuality fieldName b.value < valueQuality fieldName a.value)
  else strLE a.provider b.provider

/-- The comparator of the priority strategy: lexicographic comparison of the
Python sort key (priority, provider name). -/
def prioKeyLE (a b : Cand) : Bool :=
  if a.priority ≠ b.priority then decide (a.priority < b.priority)
  else strLE a.provider b.provider

/-- Embeds MetadataAggregator._resolve_conflict. The third component is the
candidate list as the caller sees it after the call: the priority strategy
sorts the list in place, the confidence strategy sorts a copy. The source is
only ever called with at least two candidates; on an empty list it would
raise IndexError, modelled here by an arbitrary result that no caller
reaches. -/
def resolveConflict (strategy : String) (fieldName : String) (cands : List Cand) :
    Value × String × List Cand :=
  if strategy == "priority" then
    let sorted := sortLE prioKeyLE cands
    match sorted with
    | [] => (Value.vnone, "priority", sorted)
    | c :: _ => (c.value, "priority", sorted)
  else
    let sorted := sortLE (confKeyLE fieldName) cands
    match sorted with
    | [] => (Value.vnone, "confidence", cands)
    | [w] => (w.value, "confidence", cands)
    | w :: s :: _ =>
      let reason :=
        if w.confidence ≠ s.confidence then "confidence"
        else if w.priority ≠ s.priority then "priority"
        else "quality"
      (w.value, reason, cands)

/-- One step of candidate collection: append the tuple to the candidate list
of the field (creating the entry on first sight, as the source does). -/
def addCandidate (cands : List (String × List Cand)) (f : String) (c : Cand) :
    List (String × List Cand) :=
  if cands.any (fun kv => kv.1 == f) then
    cands.map (fun kv => if kv.1 == f then (kv.1, kv.2 ++ [c]) else kv)
  else cands ++ [(f, [c])]

/-- Candidate collection from one ProviderResult, embedding the outer loop of
MetadataAggregator._merge. -/
def collectFromResult (ps : List Provider) (cands : List (String × List Cand))
    (r : ProviderResult) : List (String × List Cand) :=
  if !r.success then cands
  else
    match providerMapGet ps r.provider with
    | none => cands
    | some p =>
      r.fields.foldl (fun cs fv =>
        if shouldSkipEmpty p fv.2 then cs
        else addCandidate cs fv.1
          { provider := r.provider, value := fv.2,
            confidence := confGet r.confidence fv.1, priority := p.priority })
        cands

def collectCandidates (ps : List Provider) (results : List ProviderResult) :
    List (String × List Cand) :=
  results.foldl (collectFromResult ps) []

/-- Embeds the dict comprehension building a FieldConflict values map. -/
def candValuesDict (cs : List Cand) : List (String × Value) :=
  cs.foldl (fun d c => dictInsert d c.provider c.value) []

/-- Embeds the source-attribution loop: the first candidate whose value equals
the resolved value. -/
def firstMatchingProvider (cs : List Cand) (resolved : Value) : Option String :=
  (cs.find? (fun c => c.value == resolved)).map (fun c => c.provider)

/-- The per-field resolution step of MetadataAggregator._merge. A field with a
single surviving candidate passes through; a field with two or more goes
through resolveConflict and records a FieldConflict. The empty candidate list
never arises (addCandidate starts every entry with one element). -/
def mergeResolve (strategy : String) (agg : AggregatedResult)
    (entry : String × List Cand) : AggregatedResult :=
  match entry.2 with
  | [] => agg
  | [c] =>
    { agg with
      fields := dictInsert agg.fields entry.1 c.value,
      sources := dictInsert agg.sources entry.1 c.provider }
  | c0 :: c1 :: rest =>
    let rrc := resolveConflict strategy entry.1 (c0 :: c1 :: rest)
    let resolved := rrc.1
    let reason := rrc.2.1
    let cs2 := rrc.2.2
    let newFields := dictInsert agg.fields entry.1 resolved
    let newSources :=
      match firstMatchingProvider cs2 resolved with
      | some pn => dictInsert agg.sources entry.1 pn
      | none => agg.sources
    { agg with
      fields := newFields,
      sources := newSources,
      conflicts := agg.conflicts ++
        [{ field := entry.1, values := candValuesDict cs2,
           resolved_value := resolved, resolution_reason := reason }] }

/-- Embeds MetadataAggregator._merge. -/
def merge (strategy : String) (ps : List Provider) (results : List ProviderResult)
    (errors : List (String × String)) : AggregatedResult :=
  let cands := collectCandidates ps results
  let agg := cands.foldl (mergeResolve strategy) { errors := errors }
  { agg with missing := ALL_FIELDS.filter (fun f => !dictMem agg.fields f) }

/-- Embeds ProviderResult.set_field (providers/types.py): reject a confidence
outside the unit interval, otherwise set value and confidence together. -/
def ProviderResult.setField (r : ProviderResult) (name : String) (value : Value)
    (conf : Rat) : Except String ProviderResult :=
  if ¬ (0 ≤ conf ∧ conf ≤ 1) then
    Except.error "confidence must be in [0.0, 1.0]"
  else
    Except.ok
      { r with
        fields := dictInsert r.fields name value,
        confidence := dictInsert r.confidence name conf }

/-- Embeds ProviderResult.failure. -/
def ProviderResult.failure (provider : String) (error : String) : ProviderResult :=
  { provider := provider, success := false, error := some error }

/-- What a provider fetch does in a given run: return a result, or raise an
exception whose message is the given string. -/
inductive FetchOutcome where
  | ok : ProviderResult → FetchOutcome
  | raised : String → FetchOutcome

/-- Embeds MetadataAggregator._safe_fetch: an exception becomes a failed
ProviderResult carrying the exception message. -/
def safeFetch (env : Provider → FetchOutcome) (p : Provider) : ProviderResult :=
  match env p with
  | .ok r => r
  | .raised msg => ProviderResult.failure p.name msg

/-- The per-result bookkeeping of fetch_all: successful results are appended,
failed results with a truthy (non-None, non-empty) error string are recorded
in the errors dict, anything else is dropped. -/
def recordResult (st : List ProviderResult × List (String × String))
    (r : ProviderResult) : List ProviderResult × List (String × String) :=
  if r.success then (st.1 ++ [r], st.2)
  else
    match r.error with
    | some e => if e ≠ "" then (st.1, dictInsert st.2 r.provider e) else st
    | none => st

/-- Embeds MetadataAggregator._get_filled_fields (the result is used only
through membership, mirroring the Python set). -/
def getFilledFields (ps : List Provider) (results : List ProviderResult) :
    List String :=
  results.foldl (fun acc r =>
    if r.success then
      r.fields.foldl (fun acc2 fv =>
        let keep :=
          match providerMapGet ps r.provider with
          | some p => p.is_override || !isEmptyValue fv.2
          | none => !isEmptyValue fv.2
        if keep then acc2 ++ [fv.1] else acc2) acc
    else acc) []

/-- Embeds required.issubset(filled). -/
def requiredCovered (required : List String) (filled : List String) : Bool :=
  required.all (fun f => filled.contains f)

/-- Embeds the Stage 2 loop of fetch_all: fetch network providers one at a
time in list order, recording the invocation trace, and break as soon as the
required fields are covered. -/
def stage2 (env : Provider → FetchOutcome) (ps : List Provider)
    (stopOnComplete : Bool) (required : List String) :
    List Provider → List ProviderResult × List (String × String) × List String →
    List ProviderResult × List (String × String) × List String
  | [], st => st
  | p :: rest, (results, errors, trace) =>
    let r := safeFetch env p
    let st2 := recordResult (results, errors) r
    let trace2 := trace ++ [p.name]
    if stopOnComplete ∧ required ≠ [] ∧
        requiredCovered required (getFilledFields ps st2.1) then
      (st2.1, st2.2, trace2)
    else
      stage2 env ps stopOnComplete required rest (st2.1, st2.2, trace2)

/-- The output of a fetch_all run: the aggregated result plus the names of the
providers actually invoked in each stage (the network trace in invocation
order). -/
structure FetchAllOut where
  result : AggregatedResult
  invokedLocal : List String
  invokedNetwork : List String

/-- The local providers of the candidate list (fetch_all splits by kind, not
by hardcoded names; a kind that is neither "local" nor "network" lands in
neither stage). -/
def localProviders (providerList : List Provider) : List Provider :=
  providerList.filter (fun p => p.kind == "local")

def networkProviders (providerList : List Provider) : List Provider :=
  providerList.filter (fun p => p.kind == "network")

/-- Stage 1 of fetch_all: fetch every local provider and collect successes and
errors. asyncio.gather returns results in argument order, so the bookkeeping
folds over the local provider list in order. -/
def stage1State (env : Provider → FetchOutcome) (providerList : List Provider) :
    List ProviderResult × List (String × String) :=
  (localProviders providerList).foldl
    (fun st p => recordResult st (safeFetch env p)) ([], [])

/-- The set(required_fields or default) computation at the top of fetch_all. -/
def effectiveRequired (requiredFields : List String) : List String :=
  if requiredFields.isEmpty then ["title"] else requiredFields

/-- Embeds MetadataAggregator.fetch_all, parameterised by the already-resolved
candidate provider list and by the fetch environment. -/
def fetchAll (env : Provider → FetchOutcome) (strategy : String)
    (providerList : List Provider) (stopOnComplete : Bool)
    (requiredFields : List String) : FetchAllOut :=
  let required := effectiveRequired requiredFields
  if providerList.isEmpty then
    { result := { missing := ALL_FIELDS }, invokedLocal := [], invokedNetwork := [] }
  else
    let st1 := stage1State env providerList
    if stopOnComplete ∧ required ≠ [] ∧
        requiredCovered required (getFilledFields providerList st1.1) then
      { result := merge strategy providerList st1.1 st1.2,
        invokedLocal := (localProviders providerList).map (fun p => p.name),
        invokedNetwork := [] }
    else
      let st2 := stage2 env providerList stopOnComplete required
        (networkProviders providerList) (st1.1, st1.2, [])
      { result := merge strategy providerList st2.1 st2.2.1,
        invokedLocal := (localProviders providerList).map (fun p => p.name),
        invokedNetwork := st2.2.2 }

/-! Sorting lemmas: sortLE is a permutation, and with a total transitive
comparator its output is pairwise ordered, so its head is minimal. -/

theorem insertLE_perm {α : Type} (le : α → α → Bool) (a : α) :
    ∀ l : List α, List.Perm (insertLE le a l) (a :: l)
  | [] => List.Perm.refl _
  | b :: bs => by
    simp only [insertLE]
    split
    · exact List.Perm.refl _
    · exact ((insertLE_perm le a bs).cons b).trans (List.Perm.swap a b bs)

theorem sortLE_perm {α : Type} (le : α → α → Bool) :
    ∀ l : List α, List.Perm (sortLE le l) l
  | [] => List.Perm.refl _
  | a :: as => (insertLE_perm le a (sortLE le as)).trans ((sortLE_perm le as).cons a)

theorem insertLE_pairwise {α : Type} (le : α → α → Bool)
    (htot : ∀ x y, (le x y || le y x) = true)
    (htr : ∀ x y z, le x y = true → le y z = true → le x z = true) (a : α) :
    ∀ l : List α, l.Pairwise (fun x y => le x y = true) →
      (insertLE le a l).Pairwise (fun x y => le x y = true)
  | [], _ => by simp [insertLE]
  | b :: bs, h => by
    rcases List.pairwise_cons.mp h with ⟨hb, hbs⟩
    simp only [insertLE]
    split
    · next hab =>
      refine List.pairwise_cons.mpr ⟨?_, h⟩
      intro y hy
      rcases List.mem_cons.mp hy with rfl | hy2
      · exact hab
      · exact htr a b y hab (hb y hy2)
    · next hab =>
      have hba : le b a = true := by
        have h2 := htot a b
        simp only [Bool.or_eq_true] at h2
        rcases h2 with h2 | h2
        · exact absurd h2 hab
        · exact h2
      refine List.pairwise_cons.mpr ⟨?_, insertLE_pairwise le htot htr a bs hbs⟩
      intro y hy
      have hy3 : y ∈ a :: bs := (insertLE_perm le a bs).mem_iff.mp hy
      rcases List.mem_cons.mp hy3 with rfl | hy4
      · exact hba
      · exact hb y hy4

theorem sortLE_pairwise {α : Type} (le : α → α → Bool)
    (htot : ∀ x y, (le x y || le y x) = true)
    (htr : ∀ x y z, le x y = true → le y z = true → le x z = true) :
    ∀ l : List α, (sortLE le l).Pairwise (fun x y => le x y = true)
  | [] => by simp [sortLE]
  | a :: as => insertLE_pairwise le htot htr a _ (sortLE_pairwise le htot htr as)

theorem sortLE_head_min {α : Type} (le : α → α → Bool)
    (htot : ∀ x y, (le x y || le y x) = true)
    (htr : ∀ x y z, le x y = true → le y z = true → le x z = true)
    (l : List α) (w : α) (rest : List α) (h : sortLE le l = w :: rest) :
    ∀ c ∈ l, le w c = true := by
  intro c hc
  have hc2 : c ∈ w :: rest := by
    rw [← h]
    exact (sortLE_perm le l).mem_iff.mpr hc
  rcases List.mem_cons.mp hc2 with rfl | hcr
  · have h2 := htot c c
    simp only [Bool.or_eq_true, or_self] at h2
    exact h2
  · have hp := sortLE_pairwise le htot htr l
    rw [h] at hp
    exact (List.pairwise_cons.mp hp).1 c hcr

/-! Comparator lemmas: the comparators of the two strategies are total and
transitive, so the sorted head is a minimum. -/

theorem charsLE_refl : ∀ xs, charsLE xs xs = true
  | [] => rfl
  | x :: xs => by simp [charsLE, lt_irrefl, charsLE_refl xs]

theorem charsLE_cons_iff (x y : Char) (xs ys : List Char) :
    charsLE (x :: xs) (y :: ys) = true ↔ x < y ∨ (x = y ∧ charsLE xs ys = true) := by
  simp only [charsLE]
  rcases lt_trichotomy x y with h | h | h
  · simp [h]
  · subst h
    simp [lt_irrefl]
  · simp [asymm h, h, (ne_of_gt h)]

theorem charsLE_total : ∀ xs ys, (charsLE xs ys || charsLE ys xs) = true
  | [], _ => by simp [charsLE]
  | _ :: _, [] => by simp [charsLE]
  | x :: xs, y :: ys => by
    simp only [Bool.or_eq_true, charsLE_cons_iff]
    rcases lt_trichotomy x y with h | h | h
    · exact Or.inl (Or.inl h)
    · subst h
      have h2 := charsLE_total xs ys
      simp only [Bool.or_eq_true] at h2
      rcases h2 with h2 | h2
      · exact Or.inl (Or.inr ⟨rfl, h2⟩)
      · exact Or.inr (Or.inr ⟨rfl, h2⟩)
    · exact Or.inr (Or.inl h)

theorem charsLE_trans : ∀ xs ys zs, charsLE xs ys = true → charsLE ys zs = true →
    charsLE xs zs = true
  | [], _, _ => by simp [charsLE]
  | _ :: _, [], _ => by simp [charsLE]
  | _ :: _, _ :: _, [] => by simp [charsLE]
  | x :: xs, y :: ys, z :: zs => by
    simp only [charsLE_cons_iff]
    rintro (h1 | ⟨rfl, h1⟩) (h2 | ⟨rfl, h2⟩)
    · exact Or.inl (lt_trans h1 h2)
    · exact Or.inl h1
    · exact Or.inl h2
    · exact Or.inr ⟨rfl, charsLE_trans xs ys zs h1 h2⟩

theorem strLE_refl (a : String) : strLE a a = true := charsLE_refl a.data

theorem strLE_total (a b : String) : (strLE a b || strLE b a) = true :=
  charsLE_total a.data b.data

theorem strLE_trans (a b c : String) (h1 : strLE a b = true) (h2 : strLE b c = true) :
    strLE a c = true :=
  charsLE_trans a.data b.data c.data h1 h2

/-- The confidence-strategy comparator, spelt out as the proposition matching
the specified sort order: confidence descending, then priority ascending,
then quality descending, then provider name ascending. -/
theorem confKeyLE_iff (f : String) (a b : Cand) :
    confKeyLE f a b = true ↔
      b.confidence < a.confidence ∨
      (a.confidence = b.confidence ∧ (a.priority < b.priority ∨
        (a.priority = b.priority ∧
          (valueQuality f b.value < valueQuality f a.value ∨
            (valueQuality f a.value = valueQuality f b.value ∧
              strLE a.provider b.provider = true))))) := by
  unfold confKeyLE
  by_cases h1 : a.confidence = b.confidence
  · rw [h1]
    simp only [ne_eq, not_true, lt_irrefl, false_or, if_neg (not_not_intro rfl), true_and]
    by_cases h2 : a.priority = b.priority
    · rw [h2]
      simp only [ne_eq, not_true, lt_irrefl, false_or, if_neg (not_not_intro rfl), true_and]
      by_cases h3 : valueQuality f a.value = valueQuality f b.value
      · rw [h3]
        simp [h3, lt_irrefl]
      · simp [h3]
    · simp [h2]
  · simp [h1]

/-- The priority-strategy comparator, spelt out as the proposition matching
the specified sort order: priority ascending, then provider name ascending. -/
theorem prioKeyLE_iff (a b : Cand) :
    prioKeyLE a b = true ↔
      a.priority < b.priority ∨
      (a.priority = b.priority ∧ strLE a.provider b.provider = true) := by
  unfold prioKeyLE
  by_cases h1 : a.priority = b.priority
  · rw [h1]
    simp [lt_irrefl]
  · simp [h1]

theorem confKeyLE_total (f : String) (a b : Cand) :
    (confKeyLE f a b || confKeyLE f b a) = true := by
  simp only [Bool.or_eq_true, confKeyLE_iff]
  rcases lt_trichotomy a.confidence b.confidence with h | h | h
  · exact Or.inr (Or.inl h)
  · rcases lt_trichotomy a.priority b.priority with h2 | h2 | h2
    · exact Or.inl (Or.inr ⟨h, Or.inl h2⟩)
    · rcases lt_trichotomy (valueQuality f a.value) (valueQuality f b.value) with h3 | h3 | h3
      · exact Or.inr (Or.inr ⟨h.symm, Or.inr ⟨h2.symm, Or.inl h3⟩⟩)
      · have h4 := strLE_total a.provider b.provider
        simp only [Bool.or_eq_true] at h4
        rcases h4 with h4 | h4
        · exact Or.inl (Or.inr ⟨h, Or.inr ⟨h2, Or.inr ⟨h3, h4⟩⟩⟩)
        · exact Or.inr (Or.inr ⟨h.symm, Or.inr ⟨h2.symm, Or.inr ⟨h3.symm, h4⟩⟩⟩)
      · exact Or.inl (Or.inr ⟨h, Or.inr ⟨h2, Or.inl h3⟩⟩)
    · exact Or.inr (Or.inr ⟨h.symm, Or.inl h2⟩)
  · exact Or.inl (Or.inl h)

theorem confKeyLE_trans (f : String) (a b c : Cand)
    (h1 : confKeyLE f a b = true) (h2 : confKeyLE f b c = true) :
    confKeyLE f a c = true := by
  rw [confKeyLE_iff] at h1 h2 ⊢
  rcases h1 with h1 | ⟨e1, h1⟩
  · rcases h2 with h2 | ⟨e2, _⟩
    · exact Or.inl (lt_trans h2 h1)
    · exact Or.inl (by rw [← e2]; exact h1)
  · rcases h2 with h2 | ⟨e2, h2⟩
    · exact Or.inl (by rw [e1]; exact h2)
    · refine Or.inr ⟨e1.trans e2, ?_⟩
      rcases h1 with h1 | ⟨f1, h1⟩
      · rcases h2 with h2 | ⟨f2, _⟩
        · exact Or.inl (lt_trans h1 h2)
        · exact Or.inl (by rw [← f2]; exact h1)
      · rcases h2 with h2 | ⟨f2, h2⟩
        · exact Or.inl (by rw [f1]; exact h2)
        · refine Or.inr ⟨f1.trans f2, ?_⟩
          rcases h1 with h1 | ⟨g1, h1⟩
          · rcases h2 with h2 | ⟨g2, _⟩
            · exact Or.inl (lt_trans h2 h1)
            · exact Or.inl (by rw [← g2]; exact h1)
          · rcases h2 with h2 | ⟨g2, h2⟩
            · exact Or.inl (by rw [g1]; exact h2)
            · exact Or.inr ⟨g1.trans g2, strLE_trans _ _ _ h1 h2⟩

theorem prioKeyLE_total (a b : Cand) : (prioKeyLE a b || prioKeyLE b a) = true := by
  simp only [Bool.or_eq_true, prioKeyLE_iff]
  rcases lt_trichotomy a.priority b.priority with h | h | h
  · exact Or.inl (Or.inl h)
  · have h4 := strLE_total a.provider b.provider
    simp only [Bool.or_eq_true] at h4
    rcases h4 with h4 | h4
    · exact Or.inl (Or.inr ⟨h, h4⟩)
    · exact Or.inr (Or.inr ⟨h.symm, h4⟩)
  · exact Or.inr (Or.inl h)

theorem prioKeyLE_trans (a b c : Cand)
    (h1 : prioKeyLE a b = true) (h2 : prioKeyLE b c = true) :
    prioKeyLE a c = true := by
  rw [prioKeyLE_iff] at h1 h2 ⊢
  rcases h1 with h1 | ⟨e1, h1⟩
  · rcases h2 with h2 | ⟨e2, _⟩
    · exact Or.inl (lt_trans h1 h2)
    · exact Or.inl (by rw [← e2]; exact h1)
  · rcases h2 with h2 | ⟨e2, h2⟩
    · exact Or.inl (by rw [e1]; exact h2)
    · exact Or.inr ⟨e1.trans e2, strLE_trans _ _ _ h1 h2⟩


/-! Dictionary lemmas. -/

theorem dictInsert_cons_ne {α : Type} (k1 : String) (v1 : α) (rest : List (String × α))
    (k : String) (v : α) (h : (k1 == k) = false) :
    dictInsert ((k1, v1) :: rest) k v = (k1, v1) :: dictInsert rest k v := by
  unfold dictInsert
  by_cases h2 : rest.any (fun kv => kv.1 == k) = true
  · have hc : (((k1, v1) :: rest).any fun kv => kv.1 == k) = true := by
      simp [List.any_cons, h2]
    rw [if_pos hc, if_pos h2]
    simp only [List.map_cons, h, Bool.false_eq_true, if_false]
  · have h3 : (rest.any fun kv => kv.1 == k) = false := by
      rw [Bool.eq_false_iff]
      exact h2
    have hc : (((k1, v1) :: rest).any fun kv => kv.1 == k) = false := by
      simp [List.any_cons, h3, h]
    rw [if_neg (by simp [hc]), if_neg (by simp [h3])]
    rfl

theorem find?_map_replace {α : Type} (k : String) (v : α) :
    ∀ (d : List (String × α)) (g : String), (g == k) = false →
      (d.map (fun kv => if kv.1 == k then (kv.1, v) else kv)).find?
          (fun kv => kv.1 == g)
        = d.find? (fun kv => kv.1 == g)
  | [], _, _ => rfl
  | (k1, v1) :: rest, g, h => by
    by_cases hk : (k1 == k) = true
    · have hke : k1 = k := by simpa using hk
      have hg : (k1 == g) = false := by
        subst hke
        simp only [beq_eq_false_iff_ne, ne_eq] at h ⊢
        exact fun e => h e.symm
      simp only [List.map_cons, hk, if_true, List.find?_cons, hg]
      exact find?_map_replace k v rest g h
    · have hk2 : (k1 == k) = false := by simpa using hk
      by_cases hg : (k1 == g) = true
      · simp only [List.map_cons, hk2, Bool.false_eq_true, if_false,
          List.find?_cons, hg]
      · have hg2 : (k1 == g) = false := by simpa using hg
        simp only [List.map_cons, hk2, Bool.false_eq_true, if_false,
          List.find?_cons, hg2]
        exact find?_map_replace k v rest g h

theorem find?_append_one_ne {α : Type} (k : String) (v : α) :
    ∀ (d : List (String × α)) (g : String), (g == k) = false →
      (d ++ [(k, v)]).find? (fun kv => kv.1 == g) = d.find? (fun kv => kv.1 == g)
  | [], g, h => by
    have hkg : (k == g) = false := by
      simp only [beq_eq_false_iff_ne, ne_eq] at h ⊢
      exact fun e => h e.symm
    simp [List.find?_cons, hkg]
  | (k1, v1) :: rest, g, h => by
    by_cases hg : (k1 == g) = true
    · simp only [List.cons_append, List.find?_cons, hg]
    · have hg2 : (k1 == g) = false := by simpa using hg
      simp only [List.cons_append, List.find?_cons, hg2]
      exact find?_append_one_ne k v rest g h

theorem dictLookup_insert_self {α : Type} :
    ∀ (d : List (String × α)) (k : String) (v : α),
      dictLookup (dictInsert d k v) k = some v
  | [], k, v => by simp [dictInsert, dictLookup, List.find?_cons]
  | (k1, v1) :: rest, k, v => by
    by_cases h : (k1 == k) = true
    · have hk : k1 = k := by simpa using h
      subst hk
      unfold dictInsert
      have hc : (((k1, v1) :: rest).any fun kv => kv.1 == k1) = true := by
        simp [List.any_cons]
      rw [if_pos hc]
      unfold dictLookup
      simp only [List.map_cons, beq_self_eq_true, if_true, List.find?_cons]
      rfl
    · have h2 : (k1 == k) = false := by simpa using h
      rw [dictInsert_cons_ne _ _ _ _ _ h2]
      unfold dictLookup
      simp only [List.find?_cons, h2]
      exact dictLookup_insert_self rest k v

theorem dictLookup_insert_ne {α : Type} (d : List (String × α)) (k g : String) (v : α)
    (h : (g == k) = false) :
    dictLookup (dictInsert d k v) g = dictLookup d g := by
  unfold dictInsert
  by_cases h2 : d.any (fun kv => kv.1 == k) = true
  · rw [if_pos h2]
    unfold dictLookup
    rw [find?_map_replace k v d g h]
  · rw [if_neg h2]
    unfold dictLookup
    rw [find?_append_one_ne k v d g h]

theorem dictMem_iff_lookup {α : Type} (d : List (String × α)) (k : String) :
    dictMem d k = true ↔ ∃ v, dictLookup d k = some v := by
  unfold dictMem dictLookup
  rw [List.any_eq_true]
  constructor
  · rintro ⟨kv, hmem, hk⟩
    have hs : (d.find? (fun kv => kv.1 == k)).isSome = true := by
      rw [List.find?_isSome]
      exact ⟨kv, hmem, hk⟩
    rcases Option.isSome_iff_exists.mp hs with ⟨e, he⟩
    exact ⟨e.2, by rw [he]; rfl⟩
  · rintro ⟨v, hv⟩
    rcases Option.map_eq_some'.mp hv with ⟨e, he, _⟩
    have hp := List.find?_some he
    exact ⟨e, List.mem_of_find?_eq_some he, hp⟩

/-! Characterisation of candidate collection: the candidate list of a field is
the concatenation, over results in order, of the non-skipped pairs the result
emits for that field. -/

/-- The candidate list stored for a field (empty when the field has no
entry). -/
def lookupCands (cands : List (String × List Cand)) (f : String) : List Cand :=
  match cands.find? (fun kv => kv.1 == f) with
  | some e => e.2
  | none => []

/-- The candidate tuples a single result contributes for a field: nothing if
the result failed or its provider is unknown, otherwise one tuple per
non-skipped (field, value) pair. -/
def emittedCands (ps : List Provider) (r : ProviderResult) (f : String) : List Cand :=
  if r.success then
    match providerMapGet ps r.provider with
    | some p =>
      (r.fields.filter (fun fv => fv.1 == f && !shouldSkipEmpty p fv.2)).map
        (fun fv => { provider := r.provider, value := fv.2,
                     confidence := confGet r.confidence fv.1, priority := p.priority })
    | none => []
  else []

/-- The full candidate list for a field across a run. -/
def fieldCands (ps : List Provider) : List ProviderResult → String → List Cand
  | [], _ => []
  | r :: rest, f => emittedCands ps r f ++ fieldCands ps rest f

theorem find?_map_keyfix {α : Type} (t : α → α) (k : String) :
    ∀ (d : List (String × α)) (g : String), (g == k) = false →
      (d.map (fun kv => if kv.1 == k then (kv.1, t kv.2) else kv)).find?
          (fun kv => kv.1 == g)
        = d.find? (fun kv => kv.1 == g)
  | [], _, _ => rfl
  | (k1, v1) :: rest, g, h => by
    by_cases hk : (k1 == k) = true
    · have hke : k1 = k := by simpa using hk
      have hg : (k1 == g) = false := by
        subst hke
        simp only [beq_eq_false_iff_ne, ne_eq] at h ⊢
        exact fun e => h e.symm
      simp only [List.map_cons, hk, if_true, List.find?_cons, hg]
      exact find?_map_keyfix t k rest g h
    · have hk2 : (k1 == k) = false := by simpa using hk
      by_cases hg : (k1 == g) = true
      · simp only [List.map_cons, hk2, Bool.false_eq_true, if_false,
          List.find?_cons, hg]
      · have hg2 : (k1 == g) = false := by simpa using hg
        simp only [List.map_cons, hk2, Bool.false_eq_true, if_false,
          List.find?_cons, hg2]
        exact find?_map_keyfix t k rest g h

theorem addCandidate_cons_ne (k1 : String) (l1 : List Cand)
    (rest : List (String × List Cand)) (f : String) (c : Cand)
    (h : (k1 == f) = false) :
    addCandidate ((k1, l1) :: rest) f c = (k1, l1) :: addCandidate rest f c := by
  unfold addCandidate
  by_cases h2 : rest.any (fun kv => kv.1 == f) = true
  · have hc : (((k1, l1) :: rest).any fun kv => kv.1 == f) = true := by
      simp [List.any_cons, h2]
    rw [if_pos hc, if_pos h2]
    simp only [List.map_cons, h, Bool.false_eq_true, if_false]
  · have h3 : (rest.any fun kv => kv.1 == f) = false := by
      rw [Bool.eq_false_iff]
      exact h2
    have hc : (((k1, l1) :: rest).any fun kv => kv.1 == f) = false := by
      simp [List.any_cons, h3, h]
    rw [if_neg (by simp [hc]), if_neg (by simp [h3])]
    rfl

theorem lookupCands_addCandidate_self :
    ∀ (cands : List (String × List Cand)) (f : String) (c : Cand),
      lookupCands (addCandidate cands f c) f = lookupCands cands f ++ [c]
  | [], f, c => by simp [addCandidate, lookupCands, List.find?_cons]
  | (k1, l1) :: rest, f, c => by
    by_cases h : (k1 == f) = true
    · have hk : k1 = f := by simpa using h
      subst hk
      unfold addCandidate
      have hc : (((k1, l1) :: rest).any fun kv => kv.1 == k1) = true := by
        simp [List.any_cons]
      rw [if_pos hc]
      unfold lookupCands
      simp only [List.map_cons, beq_self_eq_true, if_true, List.find?_cons]
    · have h2 : (k1 == f) = false := by simpa using h
      rw [addCandidate_cons_ne _ _ _ _ _ h2]
      unfold lookupCands
      simp only [List.find?_cons, h2]
      exact lookupCands_addCandidate_self rest f c

theorem lookupCands_addCandidate_ne (cands : List (String × List Cand))
    (f g : String) (c : Cand) (h : (g == f) = false) :
    lookupCands (addCandidate cands f c) g = lookupCands cands g := by
  unfold addCandidate
  by_cases h2 : cands.any (fun kv => kv.1 == f) = true
  · rw [if_pos h2]
    unfold lookupCands
    rw [find?_map_keyfix (fun l => l ++ [c]) f cands g h]
  · rw [if_neg h2]
    unfold lookupCands
    rw [find?_append_one_ne f [c] cands g h]

theorem lookupCands_fieldsFold (p : Provider) (prov : String)
    (conf : List (String × Rat)) :
    ∀ (fields : List (String × Value)) (cs : List (String × List Cand)) (g : String),
      lookupCands
        (fields.foldl (fun acc fv =>
          if shouldSkipEmpty p fv.2 then acc
          else addCandidate acc fv.1
            { provider := prov, value := fv.2,
              confidence := confGet conf fv.1, priority := p.priority }) cs) g
      = lookupCands cs g ++
        (fields.filter (fun fv => fv.1 == g && !shouldSkipEmpty p fv.2)).map
          (fun fv => { provider := prov, value := fv.2,
                       confidence := confGet conf fv.1, priority := p.priority })
  | [], cs, g => by simp [List.filter]
  | fv :: rest, cs, g => by
    simp only [List.foldl_cons, List.filter_cons]
    by_cases hsk : shouldSkipEmpty p fv.2 = true
    · simp only [hsk, if_true, Bool.not_true, Bool.and_false, Bool.false_eq_true,
        if_false]
      exact lookupCands_fieldsFold p prov conf rest cs g
    · have hsk2 : shouldSkipEmpty p fv.2 = false := by
        rw [Bool.eq_false_iff]
        exact hsk
      simp only [hsk2, Bool.false_eq_true, if_false, Bool.not_false, Bool.and_true]
      rw [lookupCands_fieldsFold p prov conf rest _ g]
      by_cases hg : (fv.1 == g) = true
      · have he : fv.1 = g := by simpa using hg
        subst he
        rw [if_pos hg]
        rw [lookupCands_addCandidate_self cs fv.1 _]
        simp [List.append_assoc]
      · have hg2 : (fv.1 == g) = false := by simpa using hg
        rw [if_neg (by simp [hg2])]
        have hge : (g == fv.1) = false := by
          simp only [beq_eq_false_iff_ne, ne_eq] at hg2 ⊢
          exact fun e => hg2 e.symm
        rw [lookupCands_addCandidate_ne cs fv.1 g _ hge]

theorem lookupCands_collectFromResult (ps : List Provider)
    (cands : List (String × List Cand)) (r : ProviderResult) (g : String) :
    lookupCands (collectFromResult ps cands r) g
      = lookupCands cands g ++ emittedCands ps r g := by
  unfold collectFromResult emittedCands
  by_cases hs : r.success = true
  · simp only [hs, Bool.not_true, Bool.false_eq_true, if_false, if_true]
    cases hm : providerMapGet ps r.provider with
    | none => simp
    | some p => exact lookupCands_fieldsFold p r.provider r.confidence r.fields cands g
  · have hs2 : r.success = false := by
      rw [Bool.eq_false_iff]
      exact hs
    simp [hs2]

theorem lookupCands_collect_go (ps : List Provider) :
    ∀ (rs : List ProviderResult) (cands : List (String × List Cand)) (g : String),
      lookupCands (rs.foldl (collectFromResult ps) cands) g
        = lookupCands cands g ++ fieldCands ps rs g
  | [], cands, g => by simp [fieldCands]
  | r :: rest, cands, g => by
    simp only [List.foldl_cons, fieldCands]
    rw [lookupCands_collect_go ps rest _ g, lookupCands_collectFromResult,
      List.append_assoc]

theorem lookupCands_collectCandidates (ps : List Provider)
    (rs : List ProviderResult) (g : String) :
    lookupCands (collectCandidates ps rs) g = fieldCands ps rs g := by
  unfold collectCandidates
  rw [lookupCands_collect_go ps rs [] g]
  rfl

/-! Structural invariants of the candidate map: keys are distinct (each field
has one entry) and every entry holds at least one candidate. -/

theorem addCandidate_keys (cands : List (String × List Cand)) (f : String) (c : Cand)
    (h : cands.any (fun kv => kv.1 == f) = true) :
    (addCandidate cands f c).map Prod.fst = cands.map Prod.fst := by
  unfold addCandidate
  rw [if_pos h, List.map_map]
  apply List.map_congr_left
  intro kv _
  by_cases hk : (kv.1 == f) = true
  · have he : kv.1 = f := by simpa using hk
    simp [he]
  · have he : ¬ kv.1 = f := by simpa using hk
    simp [he]

theorem addCandidate_keys_new (cands : List (String × List Cand)) (f : String)
    (c : Cand) (h : cands.any (fun kv => kv.1 == f) = false) :
    (addCandidate cands f c).map Prod.fst = cands.map Prod.fst ++ [f] := by
  unfold addCandidate
  rw [if_neg (by simp [h])]
  simp

theorem addCandidate_nodup (cands : List (String × List Cand)) (f : String) (c : Cand)
    (h : (cands.map Prod.fst).Nodup) :
    ((addCandidate cands f c).map Prod.fst).Nodup := by
  by_cases hm : cands.any (fun kv => kv.1 == f) = true
  · rw [addCandidate_keys cands f c hm]
    exact h
  · have hm2 : cands.any (fun kv => kv.1 == f) = false := by
      rw [Bool.eq_false_iff]
      exact hm
    rw [addCandidate_keys_new cands f c hm2]
    rw [List.nodup_append]
    refine ⟨h, List.nodup_singleton f, ?_⟩
    intro x hx hx2
    have hxf : x = f := by simpa using hx2
    subst hxf
    rcases List.mem_map.mp hx with ⟨kv, hkv, hfst⟩
    have hany : cands.any (fun kv => kv.1 == x) = true :=
      List.any_eq_true.mpr ⟨kv, hkv, by simp [hfst]⟩
    rw [hm2] at hany
    exact Bool.false_ne_true hany

theorem addCandidate_nonempty (cands : List (String × List Cand)) (f : String)
    (c : Cand) (h : ∀ e ∈ cands, e.2 ≠ []) :
    ∀ e ∈ addCandidate cands f c, e.2 ≠ [] := by
  unfold addCandidate
  by_cases hm : cands.any (fun kv => kv.1 == f) = true
  · rw [if_pos hm]
    intro e he
    rcases List.mem_map.mp he with ⟨kv, hkv, hrw⟩
    by_cases hk : (kv.1 == f) = true
    · rw [if_pos hk] at hrw
      rw [← hrw]
      simp
    · rw [if_neg hk] at hrw
      rw [← hrw]
      exact h kv hkv
  · rw [if_neg hm]
    intro e he
    rcases List.mem_append.mp he with he | he
    · exact h e he
    · have : e = (f, [c]) := by simpa using he
      rw [this]
      simp

theorem collectFromResult_nodup (ps : List Provider)
    (cands : List (String × List Cand)) (r : ProviderResult)
    (h : (cands.map Prod.fst).Nodup) :
    ((collectFromResult ps cands r).map Prod.fst).Nodup := by
  unfold collectFromResult
  by_cases hs : r.success = true
  · simp only [hs, Bool.not_true, Bool.false_eq_true, if_false]
    cases hm : providerMapGet ps r.provider with
    | none => exact h
    | some p =>
      clear hm hs
      induction r.fields generalizing cands with
      | nil => exact h
      | cons fv rest ih =>
        simp only [List.foldl_cons]
        by_cases hsk : shouldSkipEmpty p fv.2 = true
        · rw [if_pos hsk]
          exact ih cands h
        · rw [if_neg hsk]
          exact ih _ (addCandidate_nodup cands fv.1 _ h)
  · have hs2 : r.success = false := by
      rw [Bool.eq_false_iff]
      exact hs
    simp [hs2, h]

theorem collectFromResult_nonempty (ps : List Provider)
    (cands : List (String × List Cand)) (r : ProviderResult)
    (h : ∀ e ∈ cands, e.2 ≠ []) :
    ∀ e ∈ collectFromResult ps cands r, e.2 ≠ [] := by
  unfold collectFromResult
  by_cases hs : r.success = true
  · simp only [hs, Bool.not_true, Bool.false_eq_true, if_false]
    cases hm : providerMapGet ps r.provider with
    | none => exact h
    | some p =>
      clear hm hs
      induction r.fields generalizing cands with
      | nil => exact h
      | cons fv rest ih =>
        simp only [List.foldl_cons]
        by_cases hsk : shouldSkipEmpty p fv.2 = true
        · rw [if_pos hsk]
          exact ih cands h
        · rw [if_neg hsk]
          exact ih _ (addCandidate_nonempty cands fv.1 _ h)
  · have hs2 : r.success = false := by
      rw [Bool.eq_false_iff]
      exact hs
    simp [hs2]
    intro a b hab
    exact h (a, b) hab

theorem collectCandidates_nodup (ps : List Provider) (rs : List ProviderResult) :
    ((collectCandidates ps rs).map Prod.fst).Nodup := by
  unfold collectCandidates
  have go : ∀ (rs : List ProviderResult) (cands : List (String × List Cand)),
      (cands.map Prod.fst).Nodup →
      ((rs.foldl (collectFromResult ps) cands).map Prod.fst).Nodup := by
    intro rs
    induction rs with
    | nil => intro cands h; exact h
    | cons r rest ih =>
      intro cands h
      exact ih _ (collectFromResult_nodup ps cands r h)
  exact go rs [] (by simp)

theorem collectCandidates_nonempty (ps : List Provider) (rs : List ProviderResult) :
    ∀ e ∈ collectCandidates ps rs, e.2 ≠ [] := by
  unfold collectCandidates
  have go : ∀ (rs : List ProviderResult) (cands : List (String × List Cand)),
      (∀ e ∈ cands, e.2 ≠ []) →
      ∀ e ∈ rs.foldl (collectFromResult ps) cands, e.2 ≠ [] := by
    intro rs
    induction rs with
    | nil => intro cands h; exact h
    | cons r rest ih =>
      intro cands h
      exact ih _ (collectFromResult_nonempty ps cands r h)
  exact go rs [] (by simp)

/-- With distinct keys, an entry of an association list is what find? returns
for its key. -/
theorem find?_of_mem_nodup :
    ∀ (cands : List (String × List Cand)), (cands.map Prod.fst).Nodup →
      ∀ e ∈ cands, cands.find? (fun kv => kv.1 == e.1) = some e
  | [], _, e, he => absurd he (List.not_mem_nil e)
  | kv0 :: rest, hnd, e, he => by
    rcases List.mem_cons.mp he with rfl | hr
    · simp [List.find?_cons]
    · have hne : (kv0.1 == e.1) = false := by
        rw [List.map_cons, List.nodup_cons] at hnd
        have hm : e.1 ∈ rest.map Prod.fst := List.mem_map.mpr ⟨e, hr, rfl⟩
        rw [beq_eq_false_iff_ne]
        intro hcontra
        rw [hcontra] at hnd
        exact hnd.1 hm
      simp only [List.find?_cons, hne]
      have hnd2 : (rest.map Prod.fst).Nodup := by
        rw [List.map_cons, List.nodup_cons] at hnd
        exact hnd.2
      exact find?_of_mem_nodup rest hnd2 e hr

/-- find? over the collected candidates, in terms of fieldCands. -/
theorem collect_find? (ps : List Provider) (rs : List ProviderResult) (f : String) :
    (collectCandidates ps rs).find? (fun kv => kv.1 == f)
      = if fieldCands ps rs f = [] then none else some (f, fieldCands ps rs f) := by
  have hlook := lookupCands_collectCandidates ps rs f
  unfold lookupCands at hlook
  cases hf : (collectCandidates ps rs).find? (fun kv => kv.1 == f) with
  | none =>
    rw [hf] at hlook
    dsimp only at hlook
    rw [if_pos hlook.symm]
  | some e =>
    rw [hf] at hlook
    dsimp only at hlook
    have hmem := List.mem_of_find?_eq_some hf
    have hkey := List.find?_some hf
    have hkey2 : e.1 = f := by simpa using hkey
    have hne : e.2 ≠ [] := collectCandidates_nonempty ps rs e hmem
    rw [hlook] at hne
    rw [if_neg hne]
    cases e with
    | mk a b =>
      dsimp only at hkey2 hlook
      rw [hkey2, hlook]

/-! Per-field resolution characterisation. -/

/-- The value the resolution loop of _merge assigns for a field whose
surviving candidate list is cs (none when cs is empty, i.e. the field has no
entry at all). -/
def entryValue (strategy fieldName : String) : List Cand → Option Value
  | [] => none
  | [c] => some c.value
  | c0 :: c1 :: rest => some (resolveConflict strategy fieldName (c0 :: c1 :: rest)).1

/-- The source provider the resolution loop records for a field. -/
def entrySource (strategy fieldName : String) : List Cand → Option String
  | [] => none
  | [c] => some c.provider
  | c0 :: c1 :: rest =>
    let rrc := resolveConflict strategy fieldName (c0 :: c1 :: rest)
    firstMatchingProvider rrc.2.2 rrc.1

/-- The conflict records the resolution loop appends for a field: none unless
the field has two or more surviving candidates. -/
def entryConflict (strategy fieldName : String) : List Cand → List FieldConflict
  | [] => []
  | [_] => []
  | c0 :: c1 :: rest =>
    let rrc := resolveConflict strategy fieldName (c0 :: c1 :: rest)
    [{ field := fieldName, values := candValuesDict rrc.2.2,
       resolved_value := rrc.1, resolution_reason := rrc.2.1 }]

def entriesConflicts (strategy : String) : List (String × List Cand) → List FieldConflict
  | [] => []
  | e :: rest => entryConflict strategy e.1 e.2 ++ entriesConflicts strategy rest

theorem sortLE_ne_nil {α : Type} (le : α → α → Bool) (l : List α) (h : l ≠ []) :
    sortLE le l ≠ [] := by
  intro hc
  have hlen := (sortLE_perm le l).length_eq
  rw [hc] at hlen
  exact h (List.eq_nil_of_length_eq_zero hlen.symm)

theorem resolveConflict_cs2_perm (strategy fieldName : String) (cs : List Cand) :
    List.Perm (resolveConflict strategy fieldName cs).2.2 cs := by
  unfold resolveConflict
  by_cases hstrat : (strategy == "priority") = true
  · rw [if_pos hstrat]
    cases hs : sortLE prioKeyLE cs with
    | nil =>
      dsimp only
      rw [← hs]
      exact sortLE_perm prioKeyLE cs
    | cons c rest =>
      dsimp only
      rw [← hs]
      exact sortLE_perm prioKeyLE cs
  · rw [if_neg hstrat]
    cases hs : sortLE (confKeyLE fieldName) cs with
    | nil => exact List.Perm.refl cs
    | cons w rest =>
      cases rest with
      | nil => exact List.Perm.refl cs
      | cons s rest2 => exact List.Perm.refl cs

theorem resolveConflict_value_mem (strategy fieldName : String) (cs : List Cand)
    (h : cs ≠ []) :
    ∃ c ∈ cs, (resolveConflict strategy fieldName cs).1 = c.value := by
  unfold resolveConflict
  by_cases hstrat : (strategy == "priority") = true
  · rw [if_pos hstrat]
    cases hs : sortLE prioKeyLE cs with
    | nil => exact absurd hs (sortLE_ne_nil prioKeyLE cs h)
    | cons c rest =>
      have hmem : c ∈ sortLE prioKeyLE cs := by
        rw [hs]
        exact List.mem_cons_self c rest
      exact ⟨c, (sortLE_perm prioKeyLE cs).mem_iff.mp hmem, rfl⟩
  · rw [if_neg hstrat]
    cases hs : sortLE (confKeyLE fieldName) cs with
    | nil => exact absurd hs (sortLE_ne_nil (confKeyLE fieldName) cs h)
    | cons w rest =>
      have hmem : w ∈ sortLE (confKeyLE fieldName) cs := by
        rw [hs]
        exact List.mem_cons_self w rest
      have hw : w ∈ cs := (sortLE_perm (confKeyLE fieldName) cs).mem_iff.mp hmem
      cases rest with
      | nil => exact ⟨w, hw, rfl⟩
      | cons s rest2 => exact ⟨w, hw, rfl⟩

theorem firstMatchingProvider_spec (cs : List Cand) (resolved : Value) (pn : String)
    (h : firstMatchingProvider cs resolved = some pn) :
    ∃ c ∈ cs, c.provider = pn ∧ c.value = resolved := by
  unfold firstMatchingProvider at h
  rcases Option.map_eq_some'.mp h with ⟨c, hc, hpn⟩
  have hval := List.find?_some hc
  have hval2 : c.value = resolved := by simpa using hval
  exact ⟨c, List.mem_of_find?_eq_some hc, hpn, hval2⟩

theorem firstMatchingProvider_isSome (cs : List Cand) (resolved : Value)
    (h : ∃ c ∈ cs, c.value = resolved) :
    ∃ pn, firstMatchingProvider cs resolved = some pn := by
  unfold firstMatchingProvider
  rcases h with ⟨c, hc, hv⟩
  have : (cs.find? (fun c => c.value == resolved)).isSome = true := by
    rw [List.find?_isSome]
    exact ⟨c, hc, by simp [hv]⟩
  rcases Option.isSome_iff_exists.mp this with ⟨c2, hc2⟩
  exact ⟨c2.provider, by rw [hc2]; rfl⟩

/-- For a nonempty candidate list, the recorded source is a candidate whose
value is exactly the resolved value. -/
theorem entrySource_matches (strategy fieldName : String) (cs : List Cand)
    (h : cs ≠ []) :
    ∃ c ∈ cs, entrySource strategy fieldName cs = some c.provider ∧
      entryValue strategy fieldName cs = some c.value := by
  match cs with
  | [c] => exact ⟨c, List.mem_cons_self c [], rfl, rfl⟩
  | c0 :: c1 :: rest =>
    have hne : (c0 :: c1 :: rest) ≠ [] := List.cons_ne_nil _ _
    rcases resolveConflict_value_mem strategy fieldName (c0 :: c1 :: rest) hne with
      ⟨c, hc, hv⟩
    have hmem2 : c ∈ (resolveConflict strategy fieldName (c0 :: c1 :: rest)).2.2 :=
      (resolveConflict_cs2_perm strategy fieldName (c0 :: c1 :: rest)).mem_iff.mpr hc
    rcases firstMatchingProvider_isSome
        (resolveConflict strategy fieldName (c0 :: c1 :: rest)).2.2
        (resolveConflict strategy fieldName (c0 :: c1 :: rest)).1
        ⟨c, hmem2, hv.symm⟩ with ⟨pn, hpn⟩
    rcases firstMatchingProvider_spec _ _ _ hpn with ⟨c2, hc2mem, hc2prov, hc2val⟩
    have hc2cs : c2 ∈ (c0 :: c1 :: rest) :=
      (resolveConflict_cs2_perm strategy fieldName (c0 :: c1 :: rest)).mem_iff.mp hc2mem
    refine ⟨c2, hc2cs, ?_, ?_⟩
    · show firstMatchingProvider _ _ = some c2.provider
      rw [hpn, hc2prov]
    · show some (resolveConflict strategy fieldName (c0 :: c1 :: rest)).1 = some c2.value
      rw [hc2val]

theorem entryValue_isSome (strategy fieldName : String) (cs : List Cand)
    (h : cs ≠ []) : ∃ v, entryValue strategy fieldName cs = some v := by
  rcases entrySource_matches strategy fieldName cs h with ⟨c, _, _, hv⟩
  exact ⟨c.value, hv⟩

theorem entrySource_isSome (strategy fieldName : String) (cs : List Cand)
    (h : cs ≠ []) : ∃ pn, entrySource strategy fieldName cs = some pn := by
  rcases entrySource_matches strategy fieldName cs h with ⟨c, _, hp, _⟩
  exact ⟨c.provider, hp⟩

theorem entryValue_from_cand (strategy fieldName : String) (cs : List Cand)
    (v : Value) (h : entryValue strategy fieldName cs = some v) :
    ∃ c ∈ cs, c.value = v := by
  match cs with
  | [] => exact absurd h (by simp [entryValue])
  | [c] =>
    refine ⟨c, List.mem_cons_self c [], ?_⟩
    have : some c.value = some v := h
    exact Option.some.inj this
  | c0 :: c1 :: rest =>
    have hne : (c0 :: c1 :: rest) ≠ [] := List.cons_ne_nil _ _
    rcases resolveConflict_value_mem strategy fieldName (c0 :: c1 :: rest) hne with
      ⟨c, hc, hv⟩
    have : some (resolveConflict strategy fieldName (c0 :: c1 :: rest)).1 = some v := h
    exact ⟨c, hc, hv ▸ Option.some.inj this⟩

/-! The resolution fold, characterised entry by entry. -/

theorem mergeResolve_fields (strategy : String) (agg : AggregatedResult)
    (e : String × List Cand) :
    (mergeResolve strategy agg e).fields =
      match entryValue strategy e.1 e.2 with
      | some v => dictInsert agg.fields e.1 v
      | none => agg.fields := by
  rcases e with ⟨f, cs⟩
  match cs with
  | [] => rfl
  | [c] => rfl
  | c0 :: c1 :: rest => rfl

theorem mergeResolve_sources (strategy : String) (agg : AggregatedResult)
    (e : String × List Cand) :
    (mergeResolve strategy agg e).sources =
      match entrySource strategy e.1 e.2 with
      | some pn => dictInsert agg.sources e.1 pn
      | none => agg.sources := by
  rcases e with ⟨f, cs⟩
  match cs with
  | [] => rfl
  | [c] => rfl
  | c0 :: c1 :: rest =>
    show (match firstMatchingProvider _ _ with
      | some pn => dictInsert agg.sources f pn
      | none => agg.sources) = _
    rfl

theorem mergeResolve_conflicts (strategy : String) (agg : AggregatedResult)
    (e : String × List Cand) :
    (mergeResolve strategy agg e).conflicts =
      agg.conflicts ++ entryConflict strategy e.1 e.2 := by
  rcases e with ⟨f, cs⟩
  match cs with
  | [] => simp [mergeResolve, entryConflict]
  | [c] => simp [mergeResolve, entryConflict]
  | c0 :: c1 :: rest => rfl

theorem mergeResolve_errors (strategy : String) (agg : AggregatedResult)
    (e : String × List Cand) :
    (mergeResolve strategy agg e).errors = agg.errors := by
  rcases e with ⟨f, cs⟩
  match cs with
  | [] => rfl
  | [c] => rfl
  | c0 :: c1 :: rest => rfl

theorem mergeResolve_missing (strategy : String) (agg : AggregatedResult)
    (e : String × List Cand) :
    (mergeResolve strategy agg e).missing = agg.missing := by
  rcases e with ⟨f, cs⟩
  match cs with
  | [] => rfl
  | [c] => rfl
  | c0 :: c1 :: rest => rfl

theorem foldl_mergeResolve_errors (strategy : String) :
    ∀ (entries : List (String × List Cand)) (agg : AggregatedResult),
      (entries.foldl (mergeResolve strategy) agg).errors = agg.errors
  | [], agg => rfl
  | e :: rest, agg => by
    simp only [List.foldl_cons]
    rw [foldl_mergeResolve_errors strategy rest _, mergeResolve_errors]

theorem foldl_mergeResolve_missing (strategy : String) :
    ∀ (entries : List (String × List Cand)) (agg : AggregatedResult),
      (entries.foldl (mergeResolve strategy) agg).missing = agg.missing
  | [], agg => rfl
  | e :: rest, agg => by
    simp only [List.foldl_cons]
    rw [foldl_mergeResolve_missing strategy rest _, mergeResolve_missing]

theorem foldl_mergeResolve_conflicts (strategy : String) :
    ∀ (entries : List (String × List Cand)) (agg : AggregatedResult),
      (entries.foldl (mergeResolve strategy) agg).conflicts
        = agg.conflicts ++ entriesConflicts strategy entries
  | [], agg => by simp [entriesConflicts]
  | e :: rest, agg => by
    simp only [List.foldl_cons, entriesConflicts]
    rw [foldl_mergeResolve_conflicts strategy rest _, mergeResolve_conflicts,
      List.append_assoc]

theorem foldl_mergeResolve_fields_notmem (strategy : String) :
    ∀ (entries : List (String × List Cand)) (agg : AggregatedResult) (f : String),
      (∀ e ∈ entries, (e.1 == f) = false) →
      dictLookup (entries.foldl (mergeResolve strategy) agg).fields f
        = dictLookup agg.fields f
  | [], _, _, _ => rfl
  | e :: rest, agg, f, h => by
    simp only [List.foldl_cons]
    rw [foldl_mergeResolve_fields_notmem strategy rest _ f
      (fun e2 he2 => h e2 (List.mem_cons_of_mem e he2))]
    rw [mergeResolve_fields]
    have hef : (e.1 == f) = false := h e (List.mem_cons_self e rest)
    have hfe : (f == e.1) = false := by
      simp only [beq_eq_false_iff_ne, ne_eq] at hef ⊢
      exact fun hc => hef hc.symm
    cases entryValue strategy e.1 e.2 with
    | none => rfl
    | some v => exact dictLookup_insert_ne agg.fields e.1 f v hfe

theorem foldl_mergeResolve_sources_notmem (strategy : String) :
    ∀ (entries : List (String × List Cand)) (agg : AggregatedResult) (f : String),
      (∀ e ∈ entries, (e.1 == f) = false) →
      dictLookup (entries.foldl (mergeResolve strategy) agg).sources f
        = dictLookup agg.sources f
  | [], _, _, _ => rfl
  | e :: rest, agg, f, h => by
    simp only [List.foldl_cons]
    rw [foldl_mergeResolve_sources_notmem strategy rest _ f
      (fun e2 he2 => h e2 (List.mem_cons_of_mem e he2))]
    rw [mergeResolve_sources]
    have hef : (e.1 == f) = false := h e (List.mem_cons_self e rest)
    have hfe : (f == e.1) = false := by
      simp only [beq_eq_false_iff_ne, ne_eq] at hef ⊢
      exact fun hc => hef hc.symm
    cases entrySource strategy e.1 e.2 with
    | none => rfl
    | some pn => exact dictLookup_insert_ne agg.sources e.1 f pn hfe

theorem foldl_mergeResolve_fields_lookup (strategy : String) :
    ∀ (entries : List (String × List Cand)) (agg : AggregatedResult) (f : String),
      (entries.map Prod.fst).Nodup → (∀ e ∈ entries, e.2 ≠ []) →
      dictLookup (entries.foldl (mergeResolve strategy) agg).fields f
        = match entries.find? (fun e => e.1 == f) with
          | some e => entryValue strategy f e.2
          | none => dictLookup agg.fields f
  | [], _, _, _, _ => rfl
  | e :: rest, agg, f, hnd, hne => by
    simp only [List.foldl_cons, List.find?_cons]
    have hnd2 : (rest.map Prod.fst).Nodup := by
      rw [List.map_cons, List.nodup_cons] at hnd
      exact hnd.2
    by_cases hef : (e.1 == f) = true
    · have hfe : e.1 = f := by simpa using hef
      have hrest : ∀ e2 ∈ rest, (e2.1 == f) = false := by
        intro e2 he2
        rw [List.map_cons, List.nodup_cons] at hnd
        rw [beq_eq_false_iff_ne]
        intro hc
        rw [← hfe] at hc
        exact hnd.1 (hc ▸ List.mem_map.mpr ⟨e2, he2, rfl⟩)
      rw [foldl_mergeResolve_fields_notmem strategy rest _ f hrest]
      rw [mergeResolve_fields]
      rcases entryValue_isSome strategy e.1 e.2 (hne e (List.mem_cons_self e rest))
        with ⟨v, hv⟩
      rw [hv, hef]
      rw [← hfe]
      simp only [hv]
      exact dictLookup_insert_self agg.fields e.1 v
    · have hef2 : (e.1 == f) = false := by simpa using hef
      rw [hef2]
      rw [foldl_mergeResolve_fields_lookup strategy rest _ f hnd2
        (fun e2 he2 => hne e2 (List.mem_cons_of_mem e he2))]
      have hfe : (f == e.1) = false := by
        simp only [beq_eq_false_iff_ne, ne_eq] at hef2 ⊢
        exact fun hc => hef2 hc.symm
      cases hfind : rest.find? (fun e2 => e2.1 == f) with
      | some e2 => rfl
      | none =>
        rw [mergeResolve_fields]
        cases entryValue strategy e.1 e.2 with
        | none => rfl
        | some v => exact dictLookup_insert_ne agg.fields e.1 f v hfe

theorem foldl_mergeResolve_sources_lookup (strategy : String) :
    ∀ (entries : List (String × List Cand)) (agg : AggregatedResult) (f : String),
      (entries.map Prod.fst).Nodup → (∀ e ∈ entries, e.2 ≠ []) →
      dictLookup (entries.foldl (mergeResolve strategy) agg).sources f
        = match entries.find? (fun e => e.1 == f) with
          | some e => entrySource strategy f e.2
          | none => dictLookup agg.sources f
  | [], _, _, _, _ => rfl
  | e :: rest, agg, f, hnd, hne => by
    simp only [List.foldl_cons, List.find?_cons]
    have hnd2 : (rest.map Prod.fst).Nodup := by
      rw [List.map_cons, List.nodup_cons] at hnd
      exact hnd.2
    by_cases hef : (e.1 == f) = true
    · have hfe : e.1 = f := by simpa using hef
      have hrest : ∀ e2 ∈ rest, (e2.1 == f) = false := by
        intro e2 he2
        rw [List.map_cons, List.nodup_cons] at hnd
        rw [beq_eq_false_iff_ne]
        intro hc
        rw [← hfe] at hc
        exact hnd.1 (hc ▸ List.mem_map.mpr ⟨e2, he2, rfl⟩)
      rw [foldl_mergeResolve_sources_notmem strategy rest _ f hrest]
      rw [mergeResolve_sources]
      rcases entrySource_isSome strategy e.1 e.2 (hne e (List.mem_cons_self e rest))
        with ⟨pn, hpn⟩
      rw [hpn, hef]
      rw [← hfe]
      simp only [hpn]
      exact dictLookup_insert_self agg.sources e.1 pn
    · have hef2 : (e.1 == f) = false := by simpa using hef
      rw [hef2]
      rw [foldl_mergeResolve_sources_lookup strategy rest _ f hnd2
        (fun e2 he2 => hne e2 (List.mem_cons_of_mem e he2))]
      have hfe : (f == e.1) = false := by
        simp only [beq_eq_false_iff_ne, ne_eq] at hef2 ⊢
        exact fun hc => hef2 hc.symm
      cases hfind : rest.find? (fun e2 => e2.1 == f) with
      | some e2 => rfl
      | none =>
        rw [mergeResolve_sources]
        cases entrySource strategy e.1 e.2 with
        | none => rfl
        | some pn => exact dictLookup_insert_ne agg.sources e.1 f pn hfe

/-! Merge, characterised field by field. -/

theorem merge_errors (strategy : String) (ps : List Provider)
    (rs : List ProviderResult) (es : List (String × String)) :
    (merge strategy ps rs es).errors = es := by
  unfold merge
  dsimp only
  rw [foldl_mergeResolve_errors]

theorem merge_fields_lookup (strategy : String) (ps : List Provider)
    (rs : List ProviderResult) (es : List (String × String)) (f : String) :
    dictLookup (merge strategy ps rs es).fields f
      = entryValue strategy f (fieldCands ps rs f) := by
  unfold merge
  dsimp only
  rw [foldl_mergeResolve_fields_lookup strategy (collectCandidates ps rs) _ f
    (collectCandidates_nodup ps rs) (collectCandidates_nonempty ps rs)]
  rw [collect_find?]
  by_cases h : fieldCands ps rs f = []
  · rw [if_pos h, h]
    rfl
  · rw [if_neg h]

theorem merge_sources_lookup (strategy : String) (ps : List Provider)
    (rs : List ProviderResult) (es : List (String × String)) (f : String) :
    dictLookup (merge strategy ps rs es).sources f
      = entrySource strategy f (fieldCands ps rs f) := by
  unfold merge
  dsimp only
  rw [foldl_mergeResolve_sources_lookup strategy (collectCandidates ps rs) _ f
    (collectCandidates_nodup ps rs) (collectCandidates_nonempty ps rs)]
  rw [collect_find?]
  by_cases h : fieldCands ps rs f = []
  · rw [if_pos h, h]
    rfl
  · rw [if_neg h]

theorem merge_conflicts (strategy : String) (ps : List Provider)
    (rs : List ProviderResult) (es : List (String × String)) :
    (merge strategy ps rs es).conflicts
      = entriesConflicts strategy (collectCandidates ps rs) := by
  unfold merge
  dsimp only
  rw [foldl_mergeResolve_conflicts]
  rfl

theorem merge_missing_mem (strategy : String) (ps : List Provider)
    (rs : List ProviderResult) (es : List (String × String)) (f : String) :
    f ∈ (merge strategy ps rs es).missing ↔
      f ∈ ALL_FIELDS ∧ dictLookup (merge strategy ps rs es).fields f = none := by
  have hm : (merge strategy ps rs es).missing
      = ALL_FIELDS.filter (fun g => !dictMem (merge strategy ps rs es).fields g) := by
    unfold merge
    dsimp only
  rw [hm, List.mem_filter]
  constructor
  · rintro ⟨h1, h2⟩
    refine ⟨h1, ?_⟩
    cases hl : dictLookup (merge strategy ps rs es).fields f with
    | none => rfl
    | some v =>
      have : dictMem (merge strategy ps rs es).fields f = true :=
        (dictMem_iff_lookup _ f).mpr ⟨v, hl⟩
      rw [this] at h2
      exact absurd h2 (by simp)
  · rintro ⟨h1, h2⟩
    refine ⟨h1, ?_⟩
    cases hmem : dictMem (merge strategy ps rs es).fields f with
    | false => rfl
    | true =>
      rcases (dictMem_iff_lookup _ f).mp hmem with ⟨v, hv⟩
      rw [h2] at hv
      exact absurd hv (by simp)

theorem mem_entriesConflicts (strategy : String) :
    ∀ (entries : List (String × List Cand)) (fc : FieldConflict),
      fc ∈ entriesConflicts strategy entries ↔
        ∃ e ∈ entries, fc ∈ entryConflict strategy e.1 e.2
  | [], fc => by simp [entriesConflicts]
  | e :: rest, fc => by
    simp only [entriesConflicts, List.mem_append, mem_entriesConflicts strategy rest fc]
    constructor
    · rintro (h | ⟨e2, he2, hfc⟩)
      · exact ⟨e, List.mem_cons_self e rest, h⟩
      · exact ⟨e2, List.mem_cons_of_mem e he2, hfc⟩
    · rintro ⟨e2, he2, hfc⟩
      rcases List.mem_cons.mp he2 with rfl | hr
      · exact Or.inl hfc
      · exact Or.inr ⟨e2, hr, hfc⟩

/-- Membership in the collected candidate map, in terms of fieldCands. -/
theorem collectCandidates_mem_iff (ps : List Provider) (rs : List ProviderResult)
    (f : String) (cs : List Cand) :
    (f, cs) ∈ collectCandidates ps rs ↔ fieldCands ps rs f = cs ∧ cs ≠ [] := by
  constructor
  · intro h
    have hf := find?_of_mem_nodup (collectCandidates ps rs)
      (collectCandidates_nodup ps rs) (f, cs) h
    have hlook := lookupCands_collectCandidates ps rs f
    unfold lookupCands at hlook
    rw [hf] at hlook
    dsimp only at hlook
    exact ⟨hlook.symm, fun hc => collectCandidates_nonempty ps rs (f, cs) h hc⟩
  · rintro ⟨hfc, hne⟩
    have := collect_find? ps rs f
    rw [if_neg (hfc ▸ hne), hfc] at this
    exact List.mem_of_find?_eq_some this

/-! Provenance of candidates, conflict records and filled fields. -/

theorem fieldCands_spec (ps : List Provider) :
    ∀ (rs : List ProviderResult) (f : String) (c : Cand), c ∈ fieldCands ps rs f →
      ∃ r ∈ rs, ∃ p : Provider, r.success = true ∧
        providerMapGet ps r.provider = some p ∧ c.provider = r.provider ∧
        (f, c.value) ∈ r.fields ∧ shouldSkipEmpty p c.value = false ∧
        c.confidence = confGet r.confidence f ∧ c.priority = p.priority
  | [], f, c => by simp [fieldCands]
  | r :: rest, f, c => by
    intro hc
    rcases List.mem_append.mp hc with hc | hc
    · unfold emittedCands at hc
      by_cases hs : r.success = true
      · rw [if_pos hs] at hc
        cases hm : providerMapGet ps r.provider with
        | none =>
          rw [hm] at hc
          exact absurd hc (List.not_mem_nil c)
        | some p =>
          rw [hm] at hc
          rcases List.mem_map.mp hc with ⟨fv, hfv, hmk⟩
          rcases List.mem_filter.mp hfv with ⟨hfv2, hcond⟩
          rw [Bool.and_eq_true] at hcond
          rcases hcond with ⟨hf, hskip⟩
          have hf2 : fv.1 = f := by simpa using hf
          have hskip2 : shouldSkipEmpty p fv.2 = false := by
            cases hv : shouldSkipEmpty p fv.2 with
            | false => rfl
            | true => rw [hv] at hskip; exact absurd hskip (by simp)
          refine ⟨r, List.mem_cons_self r rest, p, hs, hm, ?_, ?_, ?_, ?_, ?_⟩
          · rw [← hmk]
          · rw [← hmk]
            show (f, fv.2) ∈ r.fields
            rw [← hf2]
            exact hfv2
          · rw [← hmk]
            exact hskip2
          · rw [← hmk]
            show confGet r.confidence fv.1 = confGet r.confidence f
            rw [hf2]
          · rw [← hmk]
      · have hs2 : r.success = false := by
          rw [Bool.eq_false_iff]
          exact hs
        rw [hs2] at hc
        exact absurd hc (by simp)
    · rcases fieldCands_spec ps rest f c hc with ⟨r2, hr2, rest_spec⟩
      exact ⟨r2, List.mem_cons_of_mem r hr2, rest_spec⟩

theorem fieldCands_override_mem (ps : List Provider) :
    ∀ (rs : List ProviderResult) (r : ProviderResult), r ∈ rs → r.success = true →
      ∀ p : Provider, providerMapGet ps r.provider = some p → p.is_override = true →
      ∀ (f : String) (v : Value), (f, v) ∈ r.fields →
      ∃ c ∈ fieldCands ps rs f, c.provider = r.provider ∧ c.value = v
  | [], r, hr, _, _, _, _, _, _, _ => absurd hr (List.not_mem_nil r)
  | r0 :: rest, r, hr, hs, p, hm, ho, f, v, hfv => by
    rcases List.mem_cons.mp hr with rfl | hr2
    · refine ⟨⟨r.provider, v, confGet r.confidence f, p.priority⟩, ?_, rfl, rfl⟩
      show _ ∈ emittedCands ps r f ++ fieldCands ps rest f
      apply List.mem_append.mpr
      apply Or.inl
      unfold emittedCands
      rw [if_pos hs, hm]
      apply List.mem_map.mpr
      refine ⟨(f, v), ?_, rfl⟩
      apply List.mem_filter.mpr
      refine ⟨hfv, ?_⟩
      rw [Bool.and_eq_true]
      refine ⟨by simp, ?_⟩
      unfold shouldSkipEmpty
      rw [ho]
      simp
    · rcases fieldCands_override_mem ps rest r hr2 hs p hm ho f v hfv with ⟨c, hc, hcp, hcv⟩
      refine ⟨c, ?_, hcp, hcv⟩
      show _ ∈ emittedCands ps r0 f ++ fieldCands ps rest f
      exact List.mem_append.mpr (Or.inr hc)

theorem entryConflict_mem_spec (strategy g : String) (cs : List Cand)
    (fc : FieldConflict) (h : fc ∈ entryConflict strategy g cs) :
    fc.field = g ∧ 2 ≤ cs.length ∧
      fc.resolved_value = (resolveConflict strategy g cs).1 ∧
      fc.resolution_reason = (resolveConflict strategy g cs).2.1 := by
  match cs with
  | [] => exact absurd h (by simp [entryConflict])
  | [c] => exact absurd h (by simp [entryConflict])
  | c0 :: c1 :: rest =>
    have : fc = { field := g,
                  values :=
                    candValuesDict (resolveConflict strategy g (c0 :: c1 :: rest)).2.2,
                  resolved_value := (resolveConflict strategy g (c0 :: c1 :: rest)).1,
                  resolution_reason :=
                    (resolveConflict strategy g (c0 :: c1 :: rest)).2.1 } := by
      simpa [entryConflict] using h
    rw [this]
    refine ⟨rfl, by simp, rfl, rfl⟩

theorem entryConflict_of_two (strategy g : String) (cs : List Cand)
    (h : 2 ≤ cs.length) :
    ∃ fc ∈ entryConflict strategy g cs, fc.field = g := by
  match cs with
  | [] => exact absurd h (by simp)
  | [c] => exact absurd h (by simp)
  | c0 :: c1 :: rest =>
    exact ⟨_, List.mem_cons_self _ _, rfl⟩

theorem entryConflict_nil_of_lt_two (strategy g : String) (cs : List Cand)
    (h : cs.length < 2) : entryConflict strategy g cs = [] := by
  match cs with
  | [] => rfl
  | [c] => rfl
  | c0 :: c1 :: rest => simp at h; omega

theorem foldl_append_if_mem (f : String) (keep : (String × Value) → Bool) :
    ∀ (fields : List (String × Value)) (acc : List String),
      (f ∈ fields.foldl (fun a fv => if keep fv then a ++ [fv.1] else a) acc ↔
        f ∈ acc ∨ ∃ fv ∈ fields, fv.1 = f ∧ keep fv = true)
  | [], acc => by simp
  | fv :: rest, acc => by
    simp only [List.foldl_cons]
    by_cases hk : keep fv = true
    · rw [if_pos hk]
      rw [foldl_append_if_mem f keep rest (acc ++ [fv.1])]
      simp only [List.mem_append, List.mem_singleton]
      constructor
      · rintro ((hacc | hf) | ⟨fv2, hfv2, hcase⟩)
        · exact Or.inl hacc
        · exact Or.inr ⟨fv, List.mem_cons_self fv rest, hf.symm, hk⟩
        · exact Or.inr ⟨fv2, List.mem_cons_of_mem fv hfv2, hcase⟩
      · rintro (hacc | ⟨fv2, hfv2, hf, hkeep⟩)
        · exact Or.inl (Or.inl hacc)
        · rcases List.mem_cons.mp hfv2 with rfl | hr
          · exact Or.inl (Or.inr hf.symm)
          · exact Or.inr ⟨fv2, hr, hf, hkeep⟩
    · rw [if_neg hk]
      rw [foldl_append_if_mem f keep rest acc]
      constructor
      · rintro (hacc | ⟨fv2, hfv2, hcase⟩)
        · exact Or.inl hacc
        · exact Or.inr ⟨fv2, List.mem_cons_of_mem fv hfv2, hcase⟩
      · rintro (hacc | ⟨fv2, hfv2, hf, hkeep⟩)
        · exact Or.inl hacc
        · rcases List.mem_cons.mp hfv2 with rfl | hr
          · exact absurd hkeep hk
          · exact Or.inr ⟨fv2, hr, hf, hkeep⟩

/-- The keep test of _get_filled_fields, equivalently as a proposition. -/
theorem filledKeep_iff (ps : List Provider) (prov : String) (v : Value) :
    (match providerMapGet ps prov with
      | some p => p.is_override || !isEmptyValue v
      | none => !isEmptyValue v) = true ↔
      ((∃ p, providerMapGet ps prov = some p ∧ p.is_override = true) ∨
        isEmptyValue v = false) := by
  cases hm : providerMapGet ps prov with
  | none => simp
  | some p =>
    simp only [Bool.or_eq_true, Bool.not_eq_true']
    constructor
    · rintro (ho | he)
      · exact Or.inl ⟨p, rfl, ho⟩
      · exact Or.inr he
    · rintro (⟨p2, hp2, ho2⟩ | he)
      · exact Or.inl (by rw [← Option.some.inj hp2] at ho2; exact ho2)
      · exact Or.inr he

theorem getFilledFields_mem (ps : List Provider) (rs : List ProviderResult)
    (f : String) :
    f ∈ getFilledFields ps rs ↔
      ∃ r ∈ rs, r.success = true ∧ ∃ v, (f, v) ∈ r.fields ∧
        ((∃ p, providerMapGet ps r.provider = some p ∧ p.is_override = true) ∨
          isEmptyValue v = false) := by
  have go : ∀ (rs : List ProviderResult) (acc : List String),
      (f ∈ rs.foldl (fun acc r =>
        if r.success then
          r.fields.foldl (fun acc2 fv =>
            let keep :=
              match providerMapGet ps r.provider with
              | some p => p.is_override || !isEmptyValue fv.2
              | none => !isEmptyValue fv.2
            if keep then acc2 ++ [fv.1] else acc2) acc
        else acc) acc ↔
      f ∈ acc ∨ ∃ r ∈ rs, r.success = true ∧ ∃ v, (f, v) ∈ r.fields ∧
        ((∃ p, providerMapGet ps r.provider = some p ∧ p.is_override = true) ∨
          isEmptyValue v = false)) := by
    intro rs
    induction rs with
    | nil => intro acc; simp
    | cons r rest ih =>
      intro acc
      simp only [List.foldl_cons]
      by_cases hs : r.success = true
      · rw [if_pos hs]
        rw [ih]
        rw [foldl_append_if_mem f
          (fun fv => match providerMapGet ps r.provider with
            | some p => p.is_override || !isEmptyValue fv.2
            | none => !isEmptyValue fv.2) r.fields acc]
        constructor
        · rintro ((hacc | ⟨fv, hfv, hf, hkeep⟩) | ⟨r2, hr2, hspec⟩)
          · exact Or.inl hacc
          · refine Or.inr ⟨r, List.mem_cons_self r rest, hs, fv.2, ?_, ?_⟩
            · rw [← hf]
              exact hfv
            · exact (filledKeep_iff ps r.provider fv.2).mp hkeep
          · exact Or.inr ⟨r2, List.mem_cons_of_mem r hr2, hspec⟩
        · rintro (hacc | ⟨r2, hr2, hs2, v, hv, hcase⟩)
          · exact Or.inl (Or.inl hacc)
          · rcases List.mem_cons.mp hr2 with rfl | hr3
            · exact Or.inl (Or.inr ⟨(f, v), hv, rfl,
                (filledKeep_iff ps r2.provider v).mpr hcase⟩)
            · exact Or.inr ⟨r2, hr3, hs2, v, hv, hcase⟩
      · rw [if_neg hs]
        rw [ih]
        constructor
        · rintro (hacc | ⟨r2, hr2, hspec⟩)
          · exact Or.inl hacc
          · exact Or.inr ⟨r2, List.mem_cons_of_mem r hr2, hspec⟩
        · rintro (hacc | ⟨r2, hr2, hs2, hspec⟩)
          · exact Or.inl hacc
          · rcases List.mem_cons.mp hr2 with rfl | hr3
            · exact absurd hs2 hs
            · exact Or.inr ⟨r2, hr3, hs2, hspec⟩
  have := go rs []
  unfold getFilledFields
  rw [this]
  simp

/-! Concrete providers and results used by the concrete instances below. -/

def exA : Provider :=
  { name := "alpha", priority := 10, kind := "local", is_override := false }

def exB : Provider :=
  { name := "beta", priority := 20, kind := "local", is_override := false }

def exOver : Provider :=
  { name := "sidecar", priority := 5, kind := "local", is_override := true }

def exNet1 : Provider :=
  { name := "net1", priority := 30, kind := "network", is_override := false }

def exNet2 : Provider :=
  { name := "net2", priority := 40, kind := "network", is_override := false }

def exResTitle : ProviderResult :=
  { provider := "alpha", success := true,
    fields := [("title", Value.vstr "The Title")], confidence := [("title", 1)] }

def exResSameA : ProviderResult :=
  { provider := "alpha", success := true,
    fields := [("title", Value.vstr "Same")], confidence := [("title", 1)] }

def exResSameB : ProviderResult :=
  { provider := "beta", success := true,
    fields := [("title", Value.vstr "Same")], confidence := [("title", 1)] }

def exResOverEmpty : ProviderResult :=
  { provider := "sidecar", success := true,
    fields := [("subtitle", Value.vnone)], confidence := [] }

def exResBogus : ProviderResult :=
  { provider := "alpha", success := true,
    fields := [("bogus", Value.vstr "x")], confidence := [] }

def c1CandA : Cand :=
  { provider := "alpha", value := Value.vstr "Long Title", confidence := 1,
    priority := 10 }

def c1CandB : Cand :=
  { provider := "beta", value := Value.vstr "T", confidence := 0, priority := 20 }

/-- C1: with the default "confidence" merge strategy and at least two surviving
candidate tuples, the resolved value is that of the first tuple after sorting
by (confidence descending, priority ascending, quality descending, provider
name ascending) — the winner sorts no later than every candidate under that
key — and the recorded resolution reason is "confidence" if the winner and
runner-up differ in confidence, else "priority" if they differ in priority,
else "quality". -/
theorem C1_confidence_strategy (fieldName : String) (cs : List Cand)
    (h2 : 2 ≤ cs.length) :
    ∃ w s rest, sortLE (confKeyLE fieldName) cs = w :: s :: rest ∧
      List.Perm (w :: s :: rest) cs ∧
      (∀ c ∈ cs,
        c.confidence < w.confidence ∨
        (w.confidence = c.confidence ∧ (w.priority < c.priority ∨
          (w.priority = c.priority ∧
            (valueQuality fieldName c.value < valueQuality fieldName w.value ∨
              (valueQuality fieldName w.value = valueQuality fieldName c.value ∧
                strLE w.provider c.provider = true)))))) ∧
      resolveConflict "confidence" fieldName cs =
        (w.value,
         (if w.confidence ≠ s.confidence then "confidence"
          else if w.priority ≠ s.priority then "priority" else "quality"),
         cs) := by
  have hlen : (sortLE (confKeyLE fieldName) cs).length = cs.length :=
    (sortLE_perm (confKeyLE fieldName) cs).length_eq
  cases hs : sortLE (confKeyLE fieldName) cs with
  | nil =>
    exfalso
    rw [hs] at hlen
    simp at hlen
    omega
  | cons w tail =>
    cases tail with
    | nil =>
      exfalso
      rw [hs] at hlen
      simp at hlen
      omega
    | cons s rest =>
      refine ⟨w, s, rest, rfl, ?_, ?_, ?_⟩
      · rw [← hs]
        exact sortLE_perm (confKeyLE fieldName) cs
      · intro c hc
        have hmin := sortLE_head_min (confKeyLE fieldName)
          (confKeyLE_total fieldName) (confKeyLE_trans fieldName)
          cs w (s :: rest) hs c hc
        exact (confKeyLE_iff fieldName w c).mp hmin
      · unfold resolveConflict
        rw [if_neg (by decide)]
        rw [hs]

/-- Concrete instance for C1 at two candidates with confidences 0 and 1. -/
theorem C1_confidence_strategy_witness :
    ∃ w s rest, sortLE (confKeyLE "title") [c1CandB, c1CandA] = w :: s :: rest ∧
      List.Perm (w :: s :: rest) [c1CandB, c1CandA] ∧
      (∀ c ∈ [c1CandB, c1CandA],
        c.confidence < w.confidence ∨
        (w.confidence = c.confidence ∧ (w.priority < c.priority ∨
          (w.priority = c.priority ∧
            (valueQuality "title" c.value < valueQuality "title" w.value ∨
              (valueQuality "title" w.value = valueQuality "title" c.value ∧
                strLE w.provider c.provider = true)))))) ∧
      resolveConflict "confidence" "title" [c1CandB, c1CandA] =
        (w.value,
         (if w.confidence ≠ s.confidence then "confidence"
          else if w.priority ≠ s.priority then "priority" else "quality"),
         [c1CandB, c1CandA]) :=
  C1_confidence_strategy "title" [c1CandB, c1CandA] (by decide)

/-- C2 counterexample: two providers supply the SAME (equal) value for
"title"; no two providers supplied differing values, yet the merge still
creates a FieldConflict for "title". -/
theorem C2_counterexample :
    exResSameA.fields = [("title", Value.vstr "Same")] ∧
    exResSameB.fields = [("title", Value.vstr "Same")] ∧
    ((merge "confidence" [exA, exB] [exResSameA, exResSameB] []).conflicts.map
      (fun fc => fc.field)) = ["title"] := by
  refine ⟨rfl, rfl, ?_⟩
  decide

/-- C2 amended: a FieldConflict for a field is created exactly when at least
two surviving candidate tuples exist for it — whether or not their values
differ; with exactly one surviving candidate, its value is used verbatim, its
provider recorded as source, and no FieldConflict is created. -/
theorem C2_single_vs_conflict (strategy : String) (ps : List Provider)
    (rs : List ProviderResult) (es : List (String × String)) (f : String) :
    ((∃ fc ∈ (merge strategy ps rs es).conflicts, fc.field = f) ↔
      2 ≤ (fieldCands ps rs f).length) ∧
    (∀ c : Cand, fieldCands ps rs f = [c] →
      dictLookup (merge strategy ps rs es).fields f = some c.value ∧
      dictLookup (merge strategy ps rs es).sources f = some c.provider ∧
      ¬ ∃ fc ∈ (merge strategy ps rs es).conflicts, fc.field = f) := by
  have hiff : (∃ fc ∈ (merge strategy ps rs es).conflicts, fc.field = f) ↔
      2 ≤ (fieldCands ps rs f).length := by
    constructor
    · rintro ⟨fc, hfc, hfield⟩
      rw [merge_conflicts] at hfc
      rcases (mem_entriesConflicts strategy _ fc).mp hfc with ⟨e, he, hec⟩
      rcases entryConflict_mem_spec strategy e.1 e.2 fc hec with ⟨hf1, hlen, _, _⟩
      rw [hf1] at hfield
      have he2 : (f, e.2) ∈ collectCandidates ps rs := by
        rw [← hfield]
        exact he
      rcases (collectCandidates_mem_iff ps rs f e.2).mp he2 with ⟨hfc2, _⟩
      rw [hfc2]
      exact hlen
    · intro hlen
      have hne : fieldCands ps rs f ≠ [] := by
        intro hc
        rw [hc] at hlen
        simp at hlen
      have hmem : (f, fieldCands ps rs f) ∈ collectCandidates ps rs :=
        (collectCandidates_mem_iff ps rs f _).mpr ⟨rfl, hne⟩
      rcases entryConflict_of_two strategy f (fieldCands ps rs f) hlen with
        ⟨fc, hfc, hfield⟩
      refine ⟨fc, ?_, hfield⟩
      rw [merge_conflicts]
      exact (mem_entriesConflicts strategy _ fc).mpr ⟨(f, fieldCands ps rs f), hmem, hfc⟩
  refine ⟨hiff, ?_⟩
  intro c hc
  refine ⟨?_, ?_, ?_⟩
  · rw [merge_fields_lookup, hc]
    rfl
  · rw [merge_sources_lookup, hc]
    rfl
  · intro hex
    have := hiff.mp hex
    rw [hc] at this
    simp at this

theorem entryValue_of_two (strategy f : String) (cs : List Cand)
    (h : 2 ≤ cs.length) :
    entryValue strategy f cs = some (resolveConflict strategy f cs).1 := by
  match cs with
  | [] => exact absurd h (by simp)
  | [c] => exact absurd h (by simp)
  | c0 :: c1 :: rest => rfl

/-- C3: a (field, value) pair emitted by a successful provider result survives
into the candidate pool exactly by the empty-skip rule: every candidate comes
from a non-skipped pair (and an empty value can only survive through an
override provider); an override provider's pairs always survive, empty or not;
the merged value of a field is always one of its surviving candidates; and an
override provider can deliberately blank a field — concretely, an override
emitting None for "subtitle" makes None the merged value of "subtitle". -/
theorem C3_override_empty_values (strategy : String) (ps : List Provider)
    (rs : List ProviderResult) (es : List (String × String)) (f : String) :
    (∀ c ∈ fieldCands ps rs f, ∃ r ∈ rs, ∃ p : Provider, r.success = true ∧
        providerMapGet ps r.provider = some p ∧ c.provider = r.provider ∧
        (f, c.value) ∈ r.fields ∧ shouldSkipEmpty p c.value = false ∧
        (isEmptyValue c.value = true → p.is_override = true)) ∧
    (∀ r ∈ rs, r.success = true → ∀ p : Provider,
        providerMapGet ps r.provider = some p → p.is_override = true →
        ∀ v : Value, (f, v) ∈ r.fields →
          ∃ c ∈ fieldCands ps rs f, c.provider = r.provider ∧ c.value = v) ∧
    (∀ v, dictLookup (merge strategy ps rs es).fields f = some v →
        ∃ c ∈ fieldCands ps rs f, c.value = v) ∧
    dictLookup (merge "confidence" [exOver] [exResOverEmpty] []).fields "subtitle"
      = some Value.vnone := by
  refine ⟨?_, ?_, ?_, by decide⟩
  · intro c hc
    rcases fieldCands_spec ps rs f c hc with ⟨r, hr, p, hs, hm, hcp, hcf, hskip, _, _⟩
    refine ⟨r, hr, p, hs, hm, hcp, hcf, hskip, ?_⟩
    intro hemp
    by_cases ho : p.is_override = true
    · exact ho
    · exfalso
      have ho2 : p.is_override = false := by
        rw [Bool.eq_false_iff]
        exact ho
      unfold shouldSkipEmpty at hskip
      rw [ho2] at hskip
      simp only [Bool.false_eq_true, if_false] at hskip
      rw [hemp] at hskip
      exact absurd hskip (by simp)
  · intro r hr hs p hm ho v hv
    exact fieldCands_override_mem ps rs r hr hs p hm ho f v hv
  · intro v hv
    rw [merge_fields_lookup] at hv
    exact entryValue_from_cand strategy f (fieldCands ps rs f) v hv

theorem dictMem_insert {α : Type} (d : List (String × α)) (k g : String) (v : α) :
    dictMem (dictInsert d k v) g = ((g == k) || dictMem d g) := by
  by_cases h : (g == k) = true
  · have hg : g = k := by simpa using h
    subst hg
    have hl := dictLookup_insert_self d g v
    have hmem : dictMem (dictInsert d g v) g = true :=
      (dictMem_iff_lookup _ g).mpr ⟨v, hl⟩
    rw [hmem]
    simp
  · have h2 : (g == k) = false := by simpa using h
    rw [h2, Bool.false_or]
    have hl := dictLookup_insert_ne d k g v h2
    cases hm : dictMem d g with
    | true =>
      rcases (dictMem_iff_lookup d g).mp hm with ⟨w, hw⟩
      exact (dictMem_iff_lookup _ g).mpr ⟨w, by rw [hl]; exact hw⟩
    | false =>
      cases hm2 : dictMem (dictInsert d k v) g with
      | false => rfl
      | true =>
        rcases (dictMem_iff_lookup _ g).mp hm2 with ⟨w, hw⟩
        rw [hl] at hw
        have hcontra : dictMem d g = true := (dictMem_iff_lookup d g).mpr ⟨w, hw⟩
        rw [hm] at hcontra
        exact absurd hcontra (by simp)

/-- C8: set_field rejects a confidence outside the unit interval with an
error before touching either map, and otherwise sets the value and its
confidence together, so a key added through set_field is present in both maps
and the keys-in-both invariant is preserved. -/
theorem C8_set_field (r : ProviderResult) (n : String) (v : Value) (c : Rat) :
    (¬ (0 ≤ c ∧ c ≤ 1) → ProviderResult.setField r n v c =
      Except.error "confidence must be in [0.0, 1.0]") ∧
    ((0 ≤ c ∧ c ≤ 1) → ∃ r2, ProviderResult.setField r n v c = Except.ok r2 ∧
      r2.fields = dictInsert r.fields n v ∧
      r2.confidence = dictInsert r.confidence n c ∧
      dictLookup r2.fields n = some v ∧ dictLookup r2.confidence n = some c ∧
      (∀ k, dictMem r.fields k = dictMem r.confidence k →
        dictMem r2.fields k = dictMem r2.confidence k)) := by
  constructor
  · intro h
    unfold ProviderResult.setField
    rw [if_pos h]
  · intro h
    unfold ProviderResult.setField
    rw [if_neg (not_not_intro h)]
    refine ⟨_, rfl, rfl, rfl, ?_, ?_, ?_⟩
    · exact dictLookup_insert_self r.fields n v
    · exact dictLookup_insert_self r.confidence n c
    · intro k hk
      show dictMem (dictInsert r.fields n v) k = dictMem (dictInsert r.confidence n c) k
      rw [dictMem_insert, dictMem_insert, hk]

/-- C9 counterexample: a provider emitting the non-canonical field name
"bogus" gets it merged into the aggregated fields — no runtime check filters
field names against the vocabulary. -/
theorem C9_counterexample :
    dictMem (merge "confidence" [exA] [exResBogus] []).fields "bogus" = true ∧
    "bogus" ∉ ALL_FIELDS := by
  constructor
  · decide
  · decide

/-- C9 amended: the aggregator never invents field names — every merged key
was emitted by some successful result — so when every emitted name is
canonical, every merged key is canonical; but nothing rejects a non-canonical
emitted name. -/
theorem C9_vocabulary (strategy : String) (ps : List Provider)
    (rs : List ProviderResult) (es : List (String × String)) (f : String)
    (v : Value) (h : dictLookup (merge strategy ps rs es).fields f = some v) :
    (∃ r ∈ rs, r.success = true ∧ ∃ w, (f, w) ∈ r.fields) ∧
    ((∀ r ∈ rs, ∀ fv ∈ r.fields, fv.1 ∈ ALL_FIELDS) → f ∈ ALL_FIELDS) := by
  rw [merge_fields_lookup] at h
  rcases entryValue_from_cand strategy f (fieldCands ps rs f) v h with ⟨c, hc, _⟩
  rcases fieldCands_spec ps rs f c hc with ⟨r, hr, p, hs, _, _, hcf, _, _, _⟩
  constructor
  · exact ⟨r, hr, hs, c.value, hcf⟩
  · intro hvocab
    exact hvocab r hr (f, c.value) hcf

/-- Concrete instance for C9 amended: a merged "title" key traces back to an
emitting result, and canonical inputs give a canonical key. -/
theorem C9_vocabulary_witness :
    (∃ r ∈ [exResTitle], r.success = true ∧ ∃ w, ("title", w) ∈ r.fields) ∧
    ((∀ r ∈ [exResTitle], ∀ fv ∈ r.fields, fv.1 ∈ ALL_FIELDS) →
      "title" ∈ ALL_FIELDS) :=
  C9_vocabulary "confidence" [exA] [exResTitle] [] "title" (Value.vstr "The Title")
    (by decide)

/-- C10: structural invariants of every merge output — sources and fields
have the same key set; the recorded source of a merged field is a candidate
of that field whose value equals the merged value; every conflict names a
merged field and its resolved_value is that merged value; missing is exactly
the canonical vocabulary minus the merged keys. -/
theorem C10_structural_invariants (strategy : String) (ps : List Provider)
    (rs : List ProviderResult) (es : List (String × String)) :
    (∀ f, (∃ pn, dictLookup (merge strategy ps rs es).sources f = some pn) ↔
      (∃ v, dictLookup (merge strategy ps rs es).fields f = some v)) ∧
    (∀ f v, dictLookup (merge strategy ps rs es).fields f = some v →
      ∃ c ∈ fieldCands ps rs f,
        dictLookup (merge strategy ps rs es).sources f = some c.provider ∧
        c.value = v) ∧
    (∀ fc ∈ (merge strategy ps rs es).conflicts,
      dictLookup (merge strategy ps rs es).fields fc.field
        = some fc.resolved_value) ∧
    (∀ f, f ∈ (merge strategy ps rs es).missing ↔
      f ∈ ALL_FIELDS ∧ dictLookup (merge strategy ps rs es).fields f = none) := by
  refine ⟨?_, ?_, ?_, ?_⟩
  · intro f
    rw [merge_sources_lookup, merge_fields_lookup]
    by_cases h : fieldCands ps rs f = []
    · rw [h]
      simp [entrySource, entryValue]
    · constructor
      · intro _
        rcases entryValue_isSome strategy f _ h with ⟨v, hv⟩
        exact ⟨v, hv⟩
      · intro _
        rcases entrySource_isSome strategy f _ h with ⟨pn, hpn⟩
        exact ⟨pn, hpn⟩
  · intro f v hv
    rw [merge_fields_lookup] at hv
    have hne : fieldCands ps rs f ≠ [] := by
      intro hc
      rw [hc] at hv
      exact absurd hv (by simp [entryValue])
    rcases entrySource_matches strategy f _ hne with ⟨c, hcmem, hsrc, hval⟩
    rw [hv] at hval
    refine ⟨c, hcmem, ?_, (Option.some.inj hval).symm⟩
    rw [merge_sources_lookup]
    exact hsrc
  · intro fc hfc
    rw [merge_conflicts] at hfc
    rcases (mem_entriesConflicts strategy _ fc).mp hfc with ⟨e, he, hec⟩
    rcases entryConflict_mem_spec strategy e.1 e.2 fc hec with ⟨hf1, hlen, hres, _⟩
    have he2 : (e.1, e.2) ∈ collectCandidates ps rs := he
    rcases (collectCandidates_mem_iff ps rs e.1 e.2).mp he2 with ⟨hfc2, _⟩
    rw [merge_fields_lookup, hf1, hfc2]
    rw [entryValue_of_two strategy e.1 e.2 hlen, hres]
  · intro f
    exact merge_missing_mem strategy ps rs es f

/-- C7: with an empty resolved candidate provider list, fetch_all returns
normally with missing equal to the entire canonical vocabulary and all other
components empty; nothing is invoked. -/
theorem C7_no_applicable_providers (env : Provider → FetchOutcome)
    (strategy : String) (stopOnComplete : Bool) (requiredFields : List String) :
    (fetchAll env strategy [] stopOnComplete requiredFields).result.missing
      = ALL_FIELDS ∧
    (fetchAll env strategy [] stopOnComplete requiredFields).result.fields = [] ∧
    (fetchAll env strategy [] stopOnComplete requiredFields).result.sources = [] ∧
    (fetchAll env strategy [] stopOnComplete requiredFields).result.conflicts = [] ∧
    (fetchAll env strategy [] stopOnComplete requiredFields).result.errors = [] ∧
    (fetchAll env strategy [] stopOnComplete requiredFields).invokedLocal = [] ∧
    (fetchAll env strategy [] stopOnComplete requiredFields).invokedNetwork = [] :=
  ⟨rfl, rfl, rfl, rfl, rfl, rfl, rfl⟩

theorem effectiveRequired_ne_nil (requiredFields : List String) :
    effectiveRequired requiredFields ≠ [] := by
  unfold effectiveRequired
  by_cases h : requiredFields.isEmpty = true
  · rw [if_pos h]
    simp
  · rw [if_neg h]
    intro hc
    rw [hc] at h
    exact h rfl

def exEnv : Provider → FetchOutcome := fun p =>
  if p.name == "alpha" then FetchOutcome.ok exResTitle
  else FetchOutcome.ok
    { provider := p.name, success := true,
      fields := [("title", Value.vstr "From Network")], confidence := [] }

/-- C5: when stop_on_complete holds and the successful Stage-1 local results
already cover the required fields — a field counting as covered when some
successful result supplies it non-empty, or with any value when it comes from
an override provider — fetch_all merges the Stage-1 results and returns with
no network provider invoked. -/
theorem C5_local_short_circuit (env : Provider → FetchOutcome) (strategy : String)
    (ps : List Provider) (requiredFields : List String)
    (hne : ps ≠ [])
    (hcov : requiredCovered (effectiveRequired requiredFields)
      (getFilledFields ps (stage1State env ps).1) = true) :
    fetchAll env strategy ps true requiredFields =
      { result := merge strategy ps (stage1State env ps).1 (stage1State env ps).2,
        invokedLocal := (localProviders ps).map (fun p => p.name),
        invokedNetwork := [] } ∧
    (∀ f rs2, f ∈ getFilledFields ps rs2 ↔
      ∃ r ∈ rs2, r.success = true ∧ ∃ v, (f, v) ∈ r.fields ∧
        ((∃ p, providerMapGet ps r.provider = some p ∧ p.is_override = true) ∨
          isEmptyValue v = false)) := by
  constructor
  · unfold fetchAll
    have hempty : ps.isEmpty = false := by
      cases ps with
      | nil => exact absurd rfl hne
      | cons a l => rfl
    rw [if_neg (by rw [hempty]; simp)]
    rw [if_pos ⟨rfl, effectiveRequired_ne_nil requiredFields, hcov⟩]
  · intro f rs2
    exact getFilledFields_mem ps rs2 f

/-- Concrete instance for C5: a local provider supplies "title", so the
network provider is never invoked. -/
theorem C5_local_short_circuit_witness :
    fetchAll exEnv "confidence" [exA, exNet1] true ["title"] =
      { result := merge "confidence" [exA, exNet1]
          (stage1State exEnv [exA, exNet1]).1 (stage1State exEnv [exA, exNet1]).2,
        invokedLocal := (localProviders [exA, exNet1]).map (fun p => p.name),
        invokedNetwork := [] } ∧
    (∀ f rs2, f ∈ getFilledFields [exA, exNet1] rs2 ↔
      ∃ r ∈ rs2, r.success = true ∧ ∃ v, (f, v) ∈ r.fields ∧
        ((∃ p, providerMapGet [exA, exNet1] r.provider = some p ∧
          p.is_override = true) ∨ isEmptyValue v = false)) :=
  C5_local_short_circuit exEnv "confidence" [exA, exNet1] ["title"]
    (List.cons_ne_nil _ _) (by decide)

theorem stage2_trace (env : Provider → FetchOutcome) (ps : List Provider)
    (stop : Bool) (req : List String) :
    ∀ (nets : List Provider)
      (st : List ProviderResult × List (String × String) × List String),
      ∃ k, (stage2 env ps stop req nets st).2.2
        = st.2.2 ++ ((nets.take k).map (fun p => p.name))
  | [], st => ⟨0, by simp [stage2]⟩
  | q :: rest, st => by
    obtain ⟨res, errs, tr⟩ := st
    simp only [stage2]
    split
    · exact ⟨1, by simp⟩
    · rcases stage2_trace env ps stop req rest _ with ⟨k, hk⟩
      refine ⟨k + 1, ?_⟩
      rw [hk]
      simp [List.take_succ_cons, List.append_assoc]

/-- C6: Stage 2 invokes network providers one at a time in list order — the
invocation trace is an in-order prefix of the network provider list — and
once coverage is reached after some provider, the remaining ones are never
invoked: with exactly two network providers, the second is skipped whenever
the first (with the local results) already satisfies the required fields. -/
theorem C6_network_sequencing (env : Provider → FetchOutcome) (strategy : String)
    (ps : List Provider) (requiredFields : List String)
    (hne : ps ≠ [])
    (hnot1 : requiredCovered (effectiveRequired requiredFields)
      (getFilledFields ps (stage1State env ps).1) = false) :
    (∃ k, (fetchAll env strategy ps true requiredFields).invokedNetwork
        = ((networkProviders ps).take k).map (fun p => p.name)) ∧
    (∀ n1 n2, networkProviders ps = [n1, n2] →
      requiredCovered (effectiveRequired requiredFields)
        (getFilledFields ps (recordResult (stage1State env ps)
          (safeFetch env n1)).1) = true →
      (fetchAll env strategy ps true requiredFields).invokedNetwork = [n1.name]) := by
  have hempty : ps.isEmpty = false := by
    cases ps with
    | nil => exact absurd rfl hne
    | cons a l => rfl
  have hunfold : (fetchAll env strategy ps true requiredFields).invokedNetwork
      = (stage2 env ps true (effectiveRequired requiredFields)
          (networkProviders ps)
          ((stage1State env ps).1, (stage1State env ps).2, [])).2.2 := by
    unfold fetchAll
    rw [if_neg (by rw [hempty]; simp)]
    rw [if_neg (by intro hcond; rw [hnot1] at hcond; exact absurd hcond.2.2 (by simp))]
  constructor
  · rw [hunfold]
    rcases stage2_trace env ps true (effectiveRequired requiredFields)
      (networkProviders ps) ((stage1State env ps).1, (stage1State env ps).2, [])
      with ⟨k, hk⟩
    exact ⟨k, by rw [hk]; simp⟩
  · intro n1 n2 hnets hcov1
    rw [hunfold, hnets]
    simp only [stage2]
    rw [if_pos ⟨by trivial, effectiveRequired_ne_nil requiredFields, hcov1⟩]
    simp

/-- Concrete instance for C6: two network providers, no locals; the first
supplies "title", so the second is never invoked. -/
theorem C6_network_sequencing_witness :
    (∃ k, (fetchAll exEnv "confidence" [exNet1, exNet2] true ["title"]).invokedNetwork
        = ((networkProviders [exNet1, exNet2]).take k).map (fun p => p.name)) ∧
    (∀ n1 n2, networkProviders [exNet1, exNet2] = [n1, n2] →
      requiredCovered (effectiveRequired ["title"])
        (getFilledFields [exNet1, exNet2] (recordResult
          (stage1State exEnv [exNet1, exNet2]) (safeFetch exEnv n1)).1) = true →
      (fetchAll exEnv "confidence" [exNet1, exNet2] true ["title"]).invokedNetwork
        = [n1.name]) :=
  C6_network_sequencing exEnv "confidence" [exNet1, exNet2] ["title"]
    (List.cons_ne_nil _ _) (by decide)

/-! Infrastructure for batch isolation: how a raising provider moves through
the two stages, and congruence of the pipeline in the provider map. -/

theorem recordResult_fst (st : List ProviderResult × List (String × String))
    (r : ProviderResult) :
    (recordResult st r).1 = st.1 ++ (if r.success then [r] else []) := by
  unfold recordResult
  by_cases hs : r.success = true
  · rw [if_pos hs, if_pos hs]
  · rw [if_neg hs, if_neg hs]
    cases he : r.error with
    | none => simp
    | some e =>
      dsimp only
      by_cases he2 : e ≠ ""
      · rw [if_pos he2]
        simp
      · rw [if_neg he2]
        simp

theorem recordResult_raise (env : Provider → FetchOutcome) (p : Provider)
    (msg : String) (hraise : env p = FetchOutcome.raised msg) (hmsg : msg ≠ "")
    (st : List ProviderResult × List (String × String)) :
    recordResult st (safeFetch env p) = (st.1, dictInsert st.2 p.name msg) := by
  unfold safeFetch
  rw [hraise]
  unfold ProviderResult.failure recordResult
  simp [hmsg]

theorem foldl_record_fst_eq (env : Provider → FetchOutcome) :
    ∀ (L : List Provider) (st st' : List ProviderResult × List (String × String)),
      st.1 = st'.1 →
      (L.foldl (fun s q => recordResult s (safeFetch env q)) st).1
        = (L.foldl (fun s q => recordResult s (safeFetch env q)) st').1
  | [], _, _, h => h
  | q :: rest, st, st', h => by
    simp only [List.foldl_cons]
    apply foldl_record_fst_eq env rest
    rw [recordResult_fst, recordResult_fst, h]

theorem foldl_record_errors_keep (env : Provider → FetchOutcome)
    (pname msg : String) :
    ∀ (L : List Provider) (st : List ProviderResult × List (String × String)),
      dictLookup st.2 pname = some msg →
      (∀ q ∈ L, q.name ≠ pname ∧
        ∀ r : ProviderResult, env q = FetchOutcome.ok r → r.provider ≠ pname) →
      dictLookup ((L.foldl (fun s q => recordResult s (safeFetch env q)) st).2)
        pname = some msg
  | [], _, h, _ => h
  | q :: rest, st, h, hL => by
    simp only [List.foldl_cons]
    apply foldl_record_errors_keep env pname msg rest _ ?_
      (fun q2 hq2 => hL q2 (List.mem_cons_of_mem q hq2))
    rcases hL q (List.mem_cons_self q rest) with ⟨hqname, hqok⟩
    unfold safeFetch
    cases henv : env q with
    | ok r =>
      unfold recordResult
      by_cases hs : r.success = true
      · rw [if_pos hs]
        exact h
      · rw [if_neg hs]
        cases he : r.error with
        | none => exact h
        | some e =>
          dsimp only
          by_cases he2 : e ≠ ""
          · rw [if_pos he2]
            show dictLookup (dictInsert st.2 r.provider e) pname = some msg
            rw [dictLookup_insert_ne st.2 r.provider pname e
              (by rw [beq_eq_false_iff_ne]; exact fun hc => hqok r henv hc.symm)]
            exact h
          · rw [if_neg he2]
            exact h
    | raised m =>
      unfold ProviderResult.failure recordResult
      dsimp only
      rw [if_neg (by simp : ¬ (false = true))]
      by_cases hm : m ≠ ""
      · rw [if_pos hm]
        show dictLookup (dictInsert st.2 q.name m) pname = some msg
        rw [dictLookup_insert_ne st.2 q.name pname m
          (by rw [beq_eq_false_iff_ne]; exact fun hc => hqname hc.symm)]
        exact h
      · rw [if_neg hm]
        exact h

theorem foldl_record_results_prop (env : Provider → FetchOutcome)
    (P : ProviderResult → Prop) :
    ∀ (L : List Provider) (st : List ProviderResult × List (String × String)),
      (∀ r ∈ st.1, P r) →
      (∀ q ∈ L, ∀ r : ProviderResult, env q = FetchOutcome.ok r → P r) →
      ∀ r ∈ (L.foldl (fun s q => recordResult s (safeFetch env q)) st).1, P r
  | [], _, h, _ => h
  | q :: rest, st, h, hL => by
    simp only [List.foldl_cons]
    apply foldl_record_results_prop env P rest _ ?_
      (fun q2 hq2 => hL q2 (List.mem_cons_of_mem q hq2))
    intro r hr
    rw [recordResult_fst] at hr
    rcases List.mem_append.mp hr with hr1 | hr2
    · exact h r hr1
    · unfold safeFetch at hr2
      cases henv : env q with
      | ok r2 =>
        rw [henv] at hr2
        by_cases hs : r2.success = true
        · rw [if_pos hs] at hr2
          have : r = r2 := by simpa using hr2
          rw [this]
          exact hL q (List.mem_cons_self q rest) r2 henv
        · rw [if_neg hs] at hr2
          exact absurd hr2 (List.not_mem_nil r)
      | raised m =>
        rw [henv] at hr2
        simp only [ProviderResult.failure] at hr2
        rw [if_neg (by simp : ¬ (false = true))] at hr2
        exact absurd hr2 (List.not_mem_nil r)

theorem localProviders_mid (l1 l2 : List Provider) (p : Provider)
    (h : (p.kind == "local") = true) :
    localProviders (l1 ++ p :: l2)
      = localProviders l1 ++ p :: localProviders l2 := by
  unfold localProviders
  rw [List.filter_append, List.filter_cons, if_pos h]

theorem localProviders_mid_skip (l1 l2 : List Provider) (p : Provider)
    (h : (p.kind == "local") = false) :
    localProviders (l1 ++ p :: l2) = localProviders (l1 ++ l2) := by
  unfold localProviders
  rw [List.filter_append, List.filter_cons, List.filter_append]
  rw [if_neg (by rw [h]; simp)]

theorem networkProviders_mid (l1 l2 : List Provider) (p : Provider)
    (h : (p.kind == "network") = true) :
    networkProviders (l1 ++ p :: l2)
      = networkProviders l1 ++ p :: networkProviders l2 := by
  unfold networkProviders
  rw [List.filter_append, List.filter_cons, if_pos h]

theorem networkProviders_mid_skip (l1 l2 : List Provider) (p : Provider)
    (h : (p.kind == "network") = false) :
    networkProviders (l1 ++ p :: l2) = networkProviders (l1 ++ l2) := by
  unfold networkProviders
  rw [List.filter_append, List.filter_cons, List.filter_append]
  rw [if_neg (by rw [h]; simp)]

theorem providerMapGet_skip (l1 l2 : List Provider) (p : Provider) (q : String)
    (h : q ≠ p.name) :
    providerMapGet (l1 ++ p :: l2) q = providerMapGet (l1 ++ l2) q := by
  unfold providerMapGet
  rw [List.filter_append, List.filter_cons, List.filter_append]
  rw [if_neg (by rw [show (p.name == q) = false by
    rw [beq_eq_false_iff_ne]; exact fun hc => h hc.symm]; simp)]

theorem getFilledFields_congr (psA psB : List Provider) :
    ∀ (rs : List ProviderResult),
      (∀ r ∈ rs, providerMapGet psA r.provider = providerMapGet psB r.provider) →
      getFilledFields psA rs = getFilledFields psB rs := by
  have go : ∀ (rs : List ProviderResult),
      (∀ r ∈ rs, providerMapGet psA r.provider = providerMapGet psB r.provider) →
      ∀ (acc : List String),
      rs.foldl (fun acc r =>
        if r.success then
          r.fields.foldl (fun acc2 fv =>
            let keep :=
              match providerMapGet psA r.provider with
              | some p => p.is_override || !isEmptyValue fv.2
              | none => !isEmptyValue fv.2
            if keep then acc2 ++ [fv.1] else acc2) acc
        else acc) acc
      = rs.foldl (fun acc r =>
        if r.success then
          r.fields.foldl (fun acc2 fv =>
            let keep :=
              match providerMapGet psB r.provider with
              | some p => p.is_override || !isEmptyValue fv.2
              | none => !isEmptyValue fv.2
            if keep then acc2 ++ [fv.1] else acc2) acc
        else acc) acc := by
    intro rs
    induction rs with
    | nil => intro _ _; rfl
    | cons r rest ih =>
      intro h acc
      simp only [List.foldl_cons]
      rw [h r (List.mem_cons_self r rest)]
      exact ih (fun r2 hr2 => h r2 (List.mem_cons_of_mem r hr2)) _
  intro rs h
  unfold getFilledFields
  exact go rs h []

theorem collectCandidates_congr (psA psB : List Provider) :
    ∀ (rs : List ProviderResult),
      (∀ r ∈ rs, providerMapGet psA r.provider = providerMapGet psB r.provider) →
      collectCandidates psA rs = collectCandidates psB rs := by
  have go : ∀ (rs : List ProviderResult),
      (∀ r ∈ rs, providerMapGet psA r.provider = providerMapGet psB r.provider) →
      ∀ (cands : List (String × List Cand)),
      rs.foldl (collectFromResult psA) cands = rs.foldl (collectFromResult psB) cands := by
    intro rs
    induction rs with
    | nil => intro _ _; rfl
    | cons r rest ih =>
      intro h cands
      simp only [List.foldl_cons]
      have hstep : collectFromResult psA cands r = collectFromResult psB cands r := by
        unfold collectFromResult
        rw [h r (List.mem_cons_self r rest)]
      rw [hstep]
      exact ih (fun r2 hr2 => h r2 (List.mem_cons_of_mem r hr2)) _
  intro rs h
  unfold collectCandidates
  exact go rs h []

theorem foldl_mergeResolve_proj_congr (strategy : String) :
    ∀ (entries : List (String × List Cand)) (aggA aggB : AggregatedResult),
      aggA.fields = aggB.fields → aggA.sources = aggB.sources →
      aggA.conflicts = aggB.conflicts →
      (entries.foldl (mergeResolve strategy) aggA).fields
          = (entries.foldl (mergeResolve strategy) aggB).fields ∧
      (entries.foldl (mergeResolve strategy) aggA).sources
          = (entries.foldl (mergeResolve strategy) aggB).sources ∧
      (entries.foldl (mergeResolve strategy) aggA).conflicts
          = (entries.foldl (mergeResolve strategy) aggB).conflicts
  | [], _, _, hf, hs, hc => ⟨hf, hs, hc⟩
  | e :: rest, aggA, aggB, hf, hs, hc => by
    simp only [List.foldl_cons]
    apply foldl_mergeResolve_proj_congr strategy rest
    · rw [mergeResolve_fields, mergeResolve_fields, hf]
    · rw [mergeResolve_sources, mergeResolve_sources, hs]
    · rw [mergeResolve_conflicts, mergeResolve_conflicts, hc]

theorem merge_congr (strategy : String) (psA psB : List Provider)
    (rs : List ProviderResult) (esA esB : List (String × String))
    (h : ∀ r ∈ rs, providerMapGet psA r.provider = providerMapGet psB r.provider) :
    (merge strategy psA rs esA).fields = (merge strategy psB rs esB).fields ∧
    (merge strategy psA rs esA).sources = (merge strategy psB rs esB).sources ∧
    (merge strategy psA rs esA).conflicts = (merge strategy psB rs esB).conflicts := by
  unfold merge
  dsimp only
  rw [collectCandidates_congr psA psB rs h]
  exact foldl_mergeResolve_proj_congr strategy (collectCandidates psB rs)
    { errors := esA } { errors := esB } rfl rfl rfl

theorem requiredCovered_nil_filled (req : List String) (h : req ≠ []) :
    requiredCovered req [] = false := by
  cases req with
  | nil => exact absurd rfl h
  | cons a rest => simp [requiredCovered]

theorem names_ne_of_nodup (l1 l2 : List Provider) (p : Provider)
    (h : ((l1 ++ p :: l2).map Provider.name).Nodup) :
    ∀ q ∈ l1 ++ l2, q.name ≠ p.name := by
  intro q hq hcontra
  rw [List.map_append, List.map_cons] at h
  rcases List.mem_append.mp hq with hq1 | hq2
  · have hpmem : p.name ∈ l1.map Provider.name := by
      rw [← hcontra]
      exact List.mem_map.mpr ⟨q, hq1, rfl⟩
    rcases List.nodup_append.mp h with ⟨_, _, hdisj⟩
    exact hdisj hpmem (List.mem_cons_self _ _)
  · have hpmem : p.name ∈ l2.map Provider.name := by
      rw [← hcontra]
      exact List.mem_map.mpr ⟨q, hq2, rfl⟩
    rcases List.nodup_append.mp h with ⟨_, hnd2, _⟩
    rw [List.nodup_cons] at hnd2
    exact hnd2.1 hpmem

theorem stage2_congr (env : Provider → FetchOutcome) (stop : Bool) (req : List String)
    (psA psB : List Provider) (pname msg : String)
    (hpm : ∀ q, q ≠ pname → providerMapGet psA q = providerMapGet psB q) :
    ∀ (nets : List Provider) (res : List ProviderResult)
      (errF errR : List (String × String)) (trF trR : List String),
      (∀ r ∈ res, r.provider ≠ pname) →
      (∀ q ∈ nets, q.name ≠ pname ∧
        ∀ r : ProviderResult, env q = FetchOutcome.ok r → r.provider = q.name) →
      dictLookup errF pname = some msg →
      (stage2 env psA stop req nets (res, errF, trF)).1
          = (stage2 env psB stop req nets (res, errR, trR)).1 ∧
      dictLookup (stage2 env psA stop req nets (res, errF, trF)).2.1 pname = some msg ∧
      (∃ t, (stage2 env psA stop req nets (res, errF, trF)).2.2 = trF ++ t ∧
            (stage2 env psB stop req nets (res, errR, trR)).2.2 = trR ++ t) ∧
      (∀ r ∈ (stage2 env psA stop req nets (res, errF, trF)).1, r.provider ≠ pname)
  | [], res, errF, errR, trF, trR, hres, _, hlook => by
    simp only [stage2]
    refine ⟨?_, ?_, ⟨[], ?_, ?_⟩, ?_⟩
    · trivial
    · exact hlook
    · simp
    · simp
    · exact hres
  | q :: rest, res, errF, errR, trF, trR, hres, hnets, hlook => by
    rcases hnets q (List.mem_cons_self q rest) with ⟨hqname, hqok⟩
    have hres2eq : (recordResult (res, errF) (safeFetch env q)).1
        = (recordResult (res, errR) (safeFetch env q)).1 := by
      rw [recordResult_fst, recordResult_fst]
    have hres2inv : ∀ r ∈ (recordResult (res, errF) (safeFetch env q)).1,
        r.provider ≠ pname := by
      intro r hr
      rw [recordResult_fst] at hr
      rcases List.mem_append.mp hr with hr1 | hr2
      · exact hres r hr1
      · unfold safeFetch at hr2
        cases henv : env q with
        | ok r2 =>
          rw [henv] at hr2
          by_cases hs : r2.success = true
          · rw [if_pos hs] at hr2
            have hrr : r = r2 := by simpa using hr2
            rw [hrr, hqok r2 henv]
            exact hqname
          · rw [if_neg hs] at hr2
            exact absurd hr2 (List.not_mem_nil r)
        | raised m =>
          rw [henv] at hr2
          simp only [ProviderResult.failure] at hr2
          rw [if_neg (by simp : ¬ (false = true))] at hr2
          exact absurd hr2 (List.not_mem_nil r)
    have herrlook : dictLookup (recordResult (res, errF) (safeFetch env q)).2 pname
        = some msg := by
      have hstep := foldl_record_errors_keep env pname msg [q] (res, errF) hlook ?_
      · simpa using hstep
      · intro q2 hq2
        have hq2e : q2 = q := by simpa using hq2
        rw [hq2e]
        refine ⟨hqname, ?_⟩
        intro r hr
        rw [hqok r hr]
        exact hqname
    have hfillEq : getFilledFields psA (recordResult (res, errF) (safeFetch env q)).1
        = getFilledFields psB (recordResult (res, errR) (safeFetch env q)).1 := by
      rw [← hres2eq]
      exact getFilledFields_congr psA psB _ (fun r hr => hpm r.provider (hres2inv r hr))
    simp only [stage2]
    by_cases hcond : (stop = true ∧ req ≠ [] ∧
        requiredCovered req (getFilledFields psA
          (recordResult (res, errF) (safeFetch env q)).1) = true)
    · rw [if_pos hcond,
        if_pos (⟨hcond.1, hcond.2.1, by rw [← hfillEq]; exact hcond.2.2⟩ :
          (stop = true ∧ req ≠ [] ∧ requiredCovered req (getFilledFields psB
            (recordResult (res, errR) (safeFetch env q)).1) = true))]
      refine ⟨hres2eq, herrlook, ⟨[q.name], ?_, ?_⟩, hres2inv⟩
      · rfl
      · rfl
    · rw [if_neg hcond,
        if_neg (fun hc => hcond ⟨hc.1, hc.2.1, by rw [hfillEq]; exact hc.2.2⟩)]
      rw [← hres2eq]
      rcases stage2_congr env stop req psA psB pname msg hpm rest
        (recordResult (res, errF) (safeFetch env q)).1
        (recordResult (res, errF) (safeFetch env q)).2
        (recordResult (res, errR) (safeFetch env q)).2
        (trF ++ [q.name]) (trR ++ [q.name]) hres2inv
        (fun q2 hq2 => hnets q2 (List.mem_cons_of_mem q hq2)) herrlook with
        ⟨h1, h2, ⟨t, ht1, ht2⟩, h4⟩
      refine ⟨h1, h2, ⟨[q.name] ++ t, ?_, ?_⟩, h4⟩
      · rw [ht1, List.append_assoc]
      · rw [ht2, List.append_assoc]

theorem recordResult_results_inv (env : Provider → FetchOutcome) (q : Provider)
    (pname : String) (res : List ProviderResult) (errs : List (String × String))
    (hres : ∀ r ∈ res, r.provider ≠ pname) (hqname : q.name ≠ pname)
    (hqok : ∀ r : ProviderResult, env q = FetchOutcome.ok r → r.provider = q.name) :
    ∀ r ∈ (recordResult (res, errs) (safeFetch env q)).1, r.provider ≠ pname := by
  intro r hr
  rw [recordResult_fst] at hr
  rcases List.mem_append.mp hr with hr1 | hr2
  · exact hres r hr1
  · unfold safeFetch at hr2
    cases henv : env q with
    | ok r2 =>
      rw [henv] at hr2
      by_cases hs : r2.success = true
      · rw [if_pos hs] at hr2
        have hrr : r = r2 := by simpa using hr2
        rw [hrr, hqok r2 henv]
        exact hqname
      · rw [if_neg hs] at hr2
        exact absurd hr2 (List.not_mem_nil r)
    | raised m =>
      rw [henv] at hr2
      simp only [ProviderResult.failure] at hr2
      rw [if_neg (by simp : ¬ (false = true))] at hr2
      exact absurd hr2 (List.not_mem_nil r)

theorem stage2_insert_raise (env : Provider → FetchOutcome) (stop : Bool)
    (req : List String) (psA psB : List Provider) (p : Provider) (msg : String)
    (hraise : env p = FetchOutcome.raised msg) (hmsg : msg ≠ "")
    (hpm : ∀ q, q ≠ p.name → providerMapGet psA q = providerMapGet psB q) :
    ∀ (N1 N2 : List Provider) (res : List ProviderResult)
      (errs : List (String × String)) (tr : List String),
      (∀ r ∈ res, r.provider ≠ p.name) →
      p.name ∉ tr →
      (∀ q ∈ N1 ++ N2, q.name ≠ p.name ∧
        ∀ r : ProviderResult, env q = FetchOutcome.ok r → r.provider = q.name) →
      (stop = true → req ≠ [] →
        requiredCovered req (getFilledFields psA res) = false) →
      (stage2 env psA stop req (N1 ++ p :: N2) (res, errs, tr)).1
          = (stage2 env psB stop req (N1 ++ N2) (res, errs, tr)).1 ∧
      (∀ r ∈ (stage2 env psA stop req (N1 ++ p :: N2) (res, errs, tr)).1,
        r.provider ≠ p.name) ∧
      (p.name ∈ (stage2 env psA stop req (N1 ++ p :: N2) (res, errs, tr)).2.2 →
        dictLookup (stage2 env psA stop req (N1 ++ p :: N2) (res, errs, tr)).2.1
          p.name = some msg)
  | [], N2, res, errs, tr, hres, htr, hN, hguard => by
    simp only [List.nil_append]
    simp only [stage2]
    rw [recordResult_raise env p msg hraise hmsg (res, errs)]
    rw [if_neg ?hc]
    case hc =>
      rintro ⟨h1, h2, h3⟩
      have h3b : requiredCovered req (getFilledFields psA res) = true := h3
      rw [hguard h1 h2] at h3b
      exact absurd h3b (by simp)
    rcases stage2_congr env stop req psA psB p.name msg hpm N2 res
      (dictInsert errs p.name msg) errs (tr ++ [p.name]) tr hres hN
      (dictLookup_insert_self errs p.name msg) with ⟨h1, h2, ⟨t, ht1, ht2⟩, h4⟩
    refine ⟨h1, h4, ?_⟩
    intro _
    exact h2
  | q :: N1b, N2, res, errs, tr, hres, htr, hN, hguard => by
    rcases hN q (List.mem_cons_self q (N1b ++ N2)) with ⟨hqname, hqok⟩
    have hres2inv := recordResult_results_inv env q p.name res errs hres hqname hqok
    have hfillEq : getFilledFields psA (recordResult (res, errs) (safeFetch env q)).1
        = getFilledFields psB (recordResult (res, errs) (safeFetch env q)).1 :=
      getFilledFields_congr psA psB _ (fun r hr => hpm r.provider (hres2inv r hr))
    simp only [List.cons_append]
    simp only [stage2]
    by_cases hcond : (stop = true ∧ req ≠ [] ∧
        requiredCovered req (getFilledFields psA
          (recordResult (res, errs) (safeFetch env q)).1) = true)
    · rw [if_pos hcond,
        if_pos (⟨hcond.1, hcond.2.1, by rw [← hfillEq]; exact hcond.2.2⟩ :
          (stop = true ∧ req ≠ [] ∧ requiredCovered req (getFilledFields psB
            (recordResult (res, errs) (safeFetch env q)).1) = true))]
      refine ⟨rfl, hres2inv, ?_⟩
      intro hmem
      exfalso
      rcases List.mem_append.mp hmem with hm1 | hm2
      · exact htr hm1
      · have hpq : p.name = q.name := by simpa using hm2
        exact hqname hpq.symm
    · rw [if_neg hcond,
        if_neg (fun hc => hcond ⟨hc.1, hc.2.1, by rw [hfillEq]; exact hc.2.2⟩)]
      apply stage2_insert_raise env stop req psA psB p msg hraise hmsg hpm N1b N2
        (recordResult (res, errs) (safeFetch env q)).1
        (recordResult (res, errs) (safeFetch env q)).2 (tr ++ [q.name])
        hres2inv ?htr2 (fun q2 hq2 => hN q2 (List.mem_cons_of_mem q hq2)) ?hguard2
      case htr2 =>
        intro hc
        rcases List.mem_append.mp hc with hm1 | hm2
        · exact htr hm1
        · have hpq : p.name = q.name := by simpa using hm2
          exact hqname hpq.symm
      case hguard2 =>
        intro h1 h2
        cases hval : requiredCovered req (getFilledFields psA
            (recordResult (res, errs) (safeFetch env q)).1) with
        | false => rfl
        | true => exact absurd ⟨h1, h2, hval⟩ hcond

theorem merge_fields_nil (strategy : String) (ps : List Provider)
    (es : List (String × String)) : (merge strategy ps [] es).fields = [] := rfl

theorem merge_sources_nil (strategy : String) (ps : List Provider)
    (es : List (String × String)) : (merge strategy ps [] es).sources = [] := rfl

theorem merge_conflicts_nil (strategy : String) (ps : List Provider)
    (es : List (String × String)) : (merge strategy ps [] es).conflicts = [] := rfl

theorem dictLookup_single {α : Type} (k : String) (v : α) :
    dictLookup [(k, v)] k = some v := by
  unfold dictLookup
  simp [List.find?_cons]

theorem isEmpty_false_of_ne_nil {α : Type} (l : List α) (h : l ≠ []) :
    l.isEmpty = false := by
  cases l with
  | nil => exact absurd rfl h
  | cons a t => rfl

theorem fetchAll_nil (env : Provider → FetchOutcome) (strategy : String)
    (stop : Bool) (rf : List String) :
    fetchAll env strategy [] stop rf =
      { result := { missing := ALL_FIELDS }, invokedLocal := [],
        invokedNetwork := [] } := rfl

theorem fetchAll_nonempty_cov (env : Provider → FetchOutcome) (strategy : String)
    (ps : List Provider) (stop : Bool) (rf : List String)
    (hne : ps.isEmpty = false)
    (hcov : stop = true ∧ effectiveRequired rf ≠ [] ∧
      requiredCovered (effectiveRequired rf)
        (getFilledFields ps (stage1State env ps).1) = true) :
    fetchAll env strategy ps stop rf =
      { result := merge strategy ps (stage1State env ps).1 (stage1State env ps).2,
        invokedLocal := (localProviders ps).map (fun p => p.name),
        invokedNetwork := [] } := by
  unfold fetchAll
  rw [if_neg (by rw [hne]; simp), if_pos hcov]

theorem fetchAll_nonempty_nocov (env : Provider → FetchOutcome) (strategy : String)
    (ps : List Provider) (stop : Bool) (rf : List String)
    (hne : ps.isEmpty = false)
    (hcov : ¬ (stop = true ∧ effectiveRequired rf ≠ [] ∧
      requiredCovered (effectiveRequired rf)
        (getFilledFields ps (stage1State env ps).1) = true)) :
    fetchAll env strategy ps stop rf =
      { result := merge strategy ps
          (stage2 env ps stop (effectiveRequired rf) (networkProviders ps)
            ((stage1State env ps).1, (stage1State env ps).2, [])).1
          (stage2 env ps stop (effectiveRequired rf) (networkProviders ps)
            ((stage1State env ps).1, (stage1State env ps).2, [])).2.1,
        invokedLocal := (localProviders ps).map (fun p => p.name),
        invokedNetwork := (stage2 env ps stop (effectiveRequired rf)
          (networkProviders ps)
          ((stage1State env ps).1, (stage1State env ps).2, [])).2.2 } := by
  unfold fetchAll
  rw [if_neg (by rw [hne]; simp), if_neg hcov]

theorem localProviders_append (l1 l2 : List Provider) :
    localProviders (l1 ++ l2) = localProviders l1 ++ localProviders l2 := by
  unfold localProviders
  rw [List.filter_append]

theorem networkProviders_append (l1 l2 : List Provider) :
    networkProviders (l1 ++ l2) = networkProviders l1 ++ networkProviders l2 := by
  unfold networkProviders
  rw [List.filter_append]

theorem stage1_results_raise_local (env : Provider → FetchOutcome)
    (l1 l2 : List Provider) (p : Provider) (msg : String)
    (hraise : env p = FetchOutcome.raised msg) (hmsg : msg ≠ "")
    (hk : (p.kind == "local") = true) :
    (stage1State env (l1 ++ p :: l2)).1 = (stage1State env (l1 ++ l2)).1 := by
  unfold stage1State
  rw [localProviders_mid l1 l2 p hk, localProviders_append l1 l2]
  rw [List.foldl_append, List.foldl_append, List.foldl_cons]
  apply foldl_record_fst_eq
  rw [recordResult_raise env p msg hraise hmsg]

theorem stage1_errors_raise_local (env : Provider → FetchOutcome)
    (l1 l2 : List Provider) (p : Provider) (msg : String)
    (hraise : env p = FetchOutcome.raised msg) (hmsg : msg ≠ "")
    (hk : (p.kind == "local") = true)
    (hl2 : ∀ q ∈ localProviders l2, q.name ≠ p.name ∧
      ∀ r : ProviderResult, env q = FetchOutcome.ok r → r.provider ≠ p.name) :
    dictLookup (stage1State env (l1 ++ p :: l2)).2 p.name = some msg := by
  unfold stage1State
  rw [localProviders_mid l1 l2 p hk]
  rw [List.foldl_append, List.foldl_cons]
  apply foldl_record_errors_keep env p.name msg (localProviders l2) _ ?_ hl2
  rw [recordResult_raise env p msg hraise hmsg]
  exact dictLookup_insert_self _ p.name msg

theorem stage1State_congr_locals (env : Provider → FetchOutcome)
    (psA psB : List Provider) (h : localProviders psA = localProviders psB) :
    stage1State env psA = stage1State env psB := by
  unfold stage1State
  rw [h]

theorem stage1_results_inv (env : Provider → FetchOutcome) (ps : List Provider)
    (pname : String)
    (hok : ∀ q ∈ localProviders ps, ∀ r : ProviderResult,
      env q = FetchOutcome.ok r → r.provider ≠ pname) :
    ∀ r ∈ (stage1State env ps).1, r.provider ≠ pname := by
  unfold stage1State
  exact foldl_record_results_prop env _ (localProviders ps) ([], [])
    (by intro r hr; exact absurd hr (List.not_mem_nil r)) hok

/-- C4 (amended): if a provider's fetch raises an exception with a non-empty
message during a run in which it is actually invoked, fetch_all still returns,
the provider's name maps to the exception message in the errors of the
result, and the fields, sources and conflicts are exactly those of the same
run without that provider. -/
theorem C4_batch_isolation (env : Provider → FetchOutcome) (strategy : String)
    (l1 l2 : List Provider) (p : Provider) (msg : String) (stop : Bool)
    (rf : List String)
    (hraise : env p = FetchOutcome.raised msg)
    (hmsg : msg ≠ "")
    (hkind : p.kind = "local" ∨ p.kind = "network")
    (hnames : ((l1 ++ p :: l2).map Provider.name).Nodup)
    (hres : ∀ q ∈ l1 ++ p :: l2, ∀ r : ProviderResult,
      env q = FetchOutcome.ok r → r.provider = q.name)
    (hinv : p.name ∈ (fetchAll env strategy (l1 ++ p :: l2) stop rf).invokedLocal ++
      (fetchAll env strategy (l1 ++ p :: l2) stop rf).invokedNetwork) :
    (fetchAll env strategy (l1 ++ p :: l2) stop rf).result.fields
      = (fetchAll env strategy (l1 ++ l2) stop rf).result.fields ∧
    (fetchAll env strategy (l1 ++ p :: l2) stop rf).result.sources
      = (fetchAll env strategy (l1 ++ l2) stop rf).result.sources ∧
    (fetchAll env strategy (l1 ++ p :: l2) stop rf).result.conflicts
      = (fetchAll env strategy (l1 ++ l2) stop rf).result.conflicts ∧
    dictLookup (fetchAll env strategy (l1 ++ p :: l2) stop rf).result.errors p.name
      = some msg := by
  have hothers := names_ne_of_nodup l1 l2 p hnames
  have hpm : ∀ q, q ≠ p.name →
      providerMapGet (l1 ++ p :: l2) q = providerMapGet (l1 ++ l2) q :=
    fun q hq => providerMapGet_skip l1 l2 p q hq
  have hmem_red : ∀ q ∈ l1 ++ l2, q ∈ l1 ++ p :: l2 := by
    intro q hq
    rcases List.mem_append.mp hq with h | h
    · exact List.mem_append.mpr (Or.inl h)
    · exact List.mem_append.mpr (Or.inr (List.mem_cons_of_mem p h))
  have hresR : ∀ q ∈ l1 ++ l2, q.name ≠ p.name ∧ ∀ r : ProviderResult,
      env q = FetchOutcome.ok r → r.provider = q.name :=
    fun q hq => ⟨hothers q hq, fun r hr => hres q (hmem_red q hq) r hr⟩
  have hokRloc : ∀ q ∈ localProviders (l1 ++ l2), ∀ r : ProviderResult,
      env q = FetchOutcome.ok r → r.provider ≠ p.name := by
    intro q hq r hr
    have hq2 : q ∈ l1 ++ l2 := List.mem_of_mem_filter hq
    rw [(hresR q hq2).2 r hr]
    exact hothers q hq2
  have hinvR : ∀ r ∈ (stage1State env (l1 ++ l2)).1, r.provider ≠ p.name :=
    stage1_results_inv env (l1 ++ l2) p.name hokRloc
  by_cases hsplit : l1 ++ l2 = []
  · -- the run without p has no providers at all
    have hl1 : l1 = [] := by
      cases l1 with
      | nil => rfl
      | cons a t => exact absurd hsplit (by simp)
    have hl2 : l2 = [] := by
      rw [hl1] at hsplit
      exact hsplit
    subst hl1
    subst hl2
    simp only [List.nil_append, List.append_nil] at hinv ⊢
    have hres1 : (stage1State env [p]).1 = [] := by
      rcases hkind with hk | hk
      · have hkb : (p.kind == "local") = true := by
          rw [hk]
          exact beq_self_eq_true _
        unfold stage1State localProviders
        simp only [List.filter_cons, hkb, if_true, List.filter_nil,
          List.foldl_cons, List.foldl_nil]
        rw [recordResult_raise env p msg hraise hmsg]
      · have hkb : (p.kind == "local") = false := by
          rw [hk]
          decide
        unfold stage1State localProviders
        simp only [List.filter_cons, hkb, Bool.false_eq_true, if_false,
          List.filter_nil, List.foldl_nil]
    have hcond : ¬ (stop = true ∧ effectiveRequired rf ≠ [] ∧
        requiredCovered (effectiveRequired rf)
          (getFilledFields [p] (stage1State env [p]).1) = true) := by
      rintro ⟨_, hreqne, hcov⟩
      rw [hres1] at hcov
      have hcov2 : requiredCovered (effectiveRequired rf) [] = true := hcov
      rw [requiredCovered_nil_filled _ hreqne] at hcov2
      exact absurd hcov2 (by simp)
    rw [fetchAll_nonempty_nocov env strategy [p] stop rf rfl hcond, fetchAll_nil]
    dsimp only
    rcases hkind with hk | hk
    · have hknet : (p.kind == "network") = false := by
        rw [hk]
        decide
      have hnet : networkProviders [p] = [] := by
        unfold networkProviders
        simp only [List.filter_cons, hknet, Bool.false_eq_true, if_false,
          List.filter_nil]
      rw [hnet]
      simp only [stage2]
      refine ⟨?_, ?_, ?_, ?_⟩
      · rw [hres1, merge_fields_nil]
      · rw [hres1, merge_sources_nil]
      · rw [hres1, merge_conflicts_nil]
      · rw [merge_errors]
        exact stage1_errors_raise_local env [] [] p msg hraise hmsg
          (by rw [hk]; exact beq_self_eq_true _)
          (by intro q hq; exact absurd hq (by simp [localProviders]))
    · have hkb : (p.kind == "network") = true := by
        rw [hk]
        exact beq_self_eq_true _
      have hkloc : (p.kind == "local") = false := by
        rw [hk]
        decide
      have hloc : localProviders [p] = [] := by
        unfold localProviders
        simp only [List.filter_cons, hkloc, Bool.false_eq_true, if_false,
          List.filter_nil]
      have hnet : networkProviders [p] = [p] := by
        unfold networkProviders
        simp only [List.filter_cons, hkb, if_true, List.filter_nil]
      have hst1 : stage1State env [p] = ([], []) := by
        unfold stage1State
        rw [hloc]
        rfl
      rw [hnet, hst1]
      simp only [stage2]
      rw [recordResult_raise env p msg hraise hmsg]
      rw [if_neg ?hc2]
      case hc2 =>
        rintro ⟨_, hreqne, hcov⟩
        have hcov2 : requiredCovered (effectiveRequired rf) [] = true := hcov
        rw [requiredCovered_nil_filled _ hreqne] at hcov2
        exact absurd hcov2 (by simp)
      simp only [stage2]
      refine ⟨rfl, rfl, rfl, ?_⟩
      rw [merge_errors]
      exact dictLookup_insert_self _ p.name msg
  · have hneF : l1 ++ p :: l2 ≠ [] := by
      cases l1 with
      | nil => simp
      | cons a t => simp
    have hef : (l1 ++ p :: l2).isEmpty = false := isEmpty_false_of_ne_nil _ hneF
    have her : (l1 ++ l2).isEmpty = false := isEmpty_false_of_ne_nil _ hsplit
    rcases hkind with hk | hk
    · -- p is a local provider
      have hkb : (p.kind == "local") = true := by
        rw [hk]
        exact beq_self_eq_true _
      have hknet : (p.kind == "network") = false := by
        rw [hk]
        decide
      have hres1eq := stage1_results_raise_local env l1 l2 p msg hraise hmsg hkb
      have hnetEq : networkProviders (l1 ++ p :: l2) = networkProviders (l1 ++ l2) :=
        networkProviders_mid_skip l1 l2 p hknet
      have herr1 : dictLookup (stage1State env (l1 ++ p :: l2)).2 p.name = some msg := by
        apply stage1_errors_raise_local env l1 l2 p msg hraise hmsg hkb
        intro q hq
        have hq2 : q ∈ l1 ++ l2 :=
          List.mem_append.mpr (Or.inr (List.mem_of_mem_filter hq))
        refine ⟨hothers q hq2, ?_⟩
        intro r hr
        rw [(hresR q hq2).2 r hr]
        exact hothers q hq2
      have hfillEq : getFilledFields (l1 ++ p :: l2) (stage1State env (l1 ++ p :: l2)).1
          = getFilledFields (l1 ++ l2) (stage1State env (l1 ++ l2)).1 := by
        rw [hres1eq]
        exact getFilledFields_congr _ _ _ (fun r hr => hpm r.provider (hinvR r hr))
      by_cases hcov : (stop = true ∧ effectiveRequired rf ≠ [] ∧
          requiredCovered (effectiveRequired rf)
            (getFilledFields (l1 ++ p :: l2) (stage1State env (l1 ++ p :: l2)).1) = true)
      · have hcovR : (stop = true ∧ effectiveRequired rf ≠ [] ∧
            requiredCovered (effectiveRequired rf)
              (getFilledFields (l1 ++ l2) (stage1State env (l1 ++ l2)).1) = true) :=
          ⟨hcov.1, hcov.2.1, by rw [← hfillEq]; exact hcov.2.2⟩
        rw [fetchAll_nonempty_cov env strategy _ stop rf hef hcov,
          fetchAll_nonempty_cov env strategy _ stop rf her hcovR]
        dsimp only
        have hmc := merge_congr strategy (l1 ++ p :: l2) (l1 ++ l2)
          (stage1State env (l1 ++ l2)).1 (stage1State env (l1 ++ p :: l2)).2
          (stage1State env (l1 ++ l2)).2
          (fun r hr => hpm r.provider (hinvR r hr))
        refine ⟨?_, ?_, ?_, ?_⟩
        · rw [hres1eq]
          exact hmc.1
        · rw [hres1eq]
          exact hmc.2.1
        · rw [hres1eq]
          exact hmc.2.2
        · rw [merge_errors]
          exact herr1
      · have hcovR : ¬ (stop = true ∧ effectiveRequired rf ≠ [] ∧
            requiredCovered (effectiveRequired rf)
              (getFilledFields (l1 ++ l2) (stage1State env (l1 ++ l2)).1) = true) :=
          fun hc => hcov ⟨hc.1, hc.2.1, by rw [hfillEq]; exact hc.2.2⟩
        rw [fetchAll_nonempty_nocov env strategy _ stop rf hef hcov,
          fetchAll_nonempty_nocov env strategy _ stop rf her hcovR]
        dsimp only
        rw [hnetEq, hres1eq]
        have hnets1 : ∀ q ∈ networkProviders (l1 ++ l2), q.name ≠ p.name ∧
            ∀ r : ProviderResult, env q = FetchOutcome.ok r → r.provider = q.name := by
          intro q hq
          exact hresR q (List.mem_of_mem_filter hq)
        rcases stage2_congr env stop (effectiveRequired rf) (l1 ++ p :: l2)
          (l1 ++ l2) p.name msg hpm (networkProviders (l1 ++ l2))
          (stage1State env (l1 ++ l2)).1 (stage1State env (l1 ++ p :: l2)).2
          (stage1State env (l1 ++ l2)).2 [] [] hinvR hnets1 herr1 with
          ⟨h1, h2, _, h4⟩
        have hinvS : ∀ r ∈ (stage2 env (l1 ++ l2) stop (effectiveRequired rf)
            (networkProviders (l1 ++ l2))
            ((stage1State env (l1 ++ l2)).1, (stage1State env (l1 ++ l2)).2, [])).1,
            r.provider ≠ p.name := by
          intro r hr
          rw [← h1] at hr
          exact h4 r hr
        have hmc := merge_congr strategy (l1 ++ p :: l2) (l1 ++ l2)
          (stage2 env (l1 ++ l2) stop (effectiveRequired rf)
            (networkProviders (l1 ++ l2))
            ((stage1State env (l1 ++ l2)).1, (stage1State env (l1 ++ l2)).2, [])).1
          (stage2 env (l1 ++ p :: l2) stop (effectiveRequired rf)
            (networkProviders (l1 ++ l2))
            ((stage1State env (l1 ++ l2)).1, (stage1State env (l1 ++ p :: l2)).2, [])).2.1
          (stage2 env (l1 ++ l2) stop (effectiveRequired rf)
            (networkProviders (l1 ++ l2))
            ((stage1State env (l1 ++ l2)).1, (stage1State env (l1 ++ l2)).2, [])).2.1
          (fun r hr => hpm r.provider (hinvS r hr))
        refine ⟨?_, ?_, ?_, ?_⟩
        · rw [h1]
          exact hmc.1
        · rw [h1]
          exact hmc.2.1
        · rw [h1]
          exact hmc.2.2
        · rw [merge_errors]
          exact h2
    · -- p is a network provider
      have hkb : (p.kind == "network") = true := by
        rw [hk]
        exact beq_self_eq_true _
      have hkloc : (p.kind == "local") = false := by
        rw [hk]
        decide
      have hlocEq : localProviders (l1 ++ p :: l2) = localProviders (l1 ++ l2) :=
        localProviders_mid_skip l1 l2 p hkloc
      have hst1Eq : stage1State env (l1 ++ p :: l2) = stage1State env (l1 ++ l2) :=
        stage1State_congr_locals env _ _ hlocEq
      have hfillEq : getFilledFields (l1 ++ p :: l2) (stage1State env (l1 ++ p :: l2)).1
          = getFilledFields (l1 ++ l2) (stage1State env (l1 ++ l2)).1 := by
        rw [hst1Eq]
        exact getFilledFields_congr _ _ _ (fun r hr => hpm r.provider (hinvR r hr))
      by_cases hcov : (stop = true ∧ effectiveRequired rf ≠ [] ∧
          requiredCovered (effectiveRequired rf)
            (getFilledFields (l1 ++ p :: l2) (stage1State env (l1 ++ p :: l2)).1) = true)
      · -- short-circuit: p was never invoked, contradicting hinv
        exfalso
        rw [fetchAll_nonempty_cov env strategy _ stop rf hef hcov] at hinv
        dsimp only at hinv
        rw [hlocEq, List.append_nil] at hinv
        rcases List.mem_map.mp hinv with ⟨q, hq, hqn⟩
        exact hothers q (List.mem_of_mem_filter hq) hqn
      · have hcovR : ¬ (stop = true ∧ effectiveRequired rf ≠ [] ∧
            requiredCovered (effectiveRequired rf)
              (getFilledFields (l1 ++ l2) (stage1State env (l1 ++ l2)).1) = true) :=
          fun hc => hcov ⟨hc.1, hc.2.1, by rw [hfillEq]; exact hc.2.2⟩
        rw [fetchAll_nonempty_nocov env strategy _ stop rf hef hcov] at hinv
        dsimp only at hinv
        rw [fetchAll_nonempty_nocov env strategy _ stop rf hef hcov,
          fetchAll_nonempty_nocov env strategy _ stop rf her hcovR]
        dsimp only
        have hnetF : networkProviders (l1 ++ p :: l2)
            = networkProviders l1 ++ p :: networkProviders l2 :=
          networkProviders_mid l1 l2 p hkb
        have hnetR : networkProviders (l1 ++ l2)
            = networkProviders l1 ++ networkProviders l2 :=
          networkProviders_append l1 l2
        rw [hnetF, hst1Eq] at hinv ⊢
        rw [hnetR]
        have hnets2 : ∀ q ∈ networkProviders l1 ++ networkProviders l2,
            q.name ≠ p.name ∧ ∀ r : ProviderResult,
              env q = FetchOutcome.ok r → r.provider = q.name := by
          intro q hq
          have hq2 : q ∈ l1 ++ l2 := by
            rcases List.mem_append.mp hq with h | h
            · exact List.mem_append.mpr (Or.inl (List.mem_of_mem_filter h))
            · exact List.mem_append.mpr (Or.inr (List.mem_of_mem_filter h))
          exact hresR q hq2
        have hguard2 : stop = true → effectiveRequired rf ≠ [] →
            requiredCovered (effectiveRequired rf)
              (getFilledFields (l1 ++ p :: l2) (stage1State env (l1 ++ l2)).1)
              = false := by
          intro h1b h2b
          cases hval : requiredCovered (effectiveRequired rf)
              (getFilledFields (l1 ++ p :: l2) (stage1State env (l1 ++ l2)).1) with
          | false => rfl
          | true =>
            exfalso
            apply hcov
            refine ⟨h1b, h2b, ?_⟩
            rw [hst1Eq]
            exact hval
        rcases stage2_insert_raise env stop (effectiveRequired rf) (l1 ++ p :: l2)
          (l1 ++ l2) p msg hraise hmsg hpm (networkProviders l1)
          (networkProviders l2) (stage1State env (l1 ++ l2)).1
          (stage1State env (l1 ++ l2)).2 [] hinvR (by simp) hnets2 hguard2 with
          ⟨h1, h4, himpl⟩
        have hinvS : ∀ r ∈ (stage2 env (l1 ++ l2) stop (effectiveRequired rf)
            (networkProviders l1 ++ networkProviders l2)
            ((stage1State env (l1 ++ l2)).1, (stage1State env (l1 ++ l2)).2, [])).1,
            r.provider ≠ p.name := by
          intro r hr
          rw [← h1] at hr
          exact h4 r hr
        have hmc := merge_congr strategy (l1 ++ p :: l2) (l1 ++ l2)
          (stage2 env (l1 ++ l2) stop (effectiveRequired rf)
            (networkProviders l1 ++ networkProviders l2)
            ((stage1State env (l1 ++ l2)).1, (stage1State env (l1 ++ l2)).2, [])).1
          (stage2 env (l1 ++ p :: l2) stop (effectiveRequired rf)
            (networkProviders l1 ++ p :: networkProviders l2)
            ((stage1State env (l1 ++ l2)).1, (stage1State env (l1 ++ l2)).2, [])).2.1
          (stage2 env (l1 ++ l2) stop (effectiveRequired rf)
            (networkProviders l1 ++ networkProviders l2)
            ((stage1State env (l1 ++ l2)).1, (stage1State env (l1 ++ l2)).2, [])).2.1
          (fun r hr => hpm r.provider (hinvS r hr))
        refine ⟨?_, ?_, ?_, ?_⟩
        · rw [h1]
          exact hmc.1
        · rw [h1]
          exact hmc.2.1
        · rw [h1]
          exact hmc.2.2
        · rw [merge_errors]
          apply himpl
          rcases List.mem_append.mp hinv with hm1 | hm2
          · exfalso
            rw [hlocEq] at hm1
            rcases List.mem_map.mp hm1 with ⟨q, hq, hqn⟩
            exact hothers q (List.mem_of_mem_filter hq) hqn
          · exact hm2

/-- C4 counterexample: a provider whose fetch raises an exception with an
EMPTY message is invoked, yet its name is absent from errors (the source only
records truthy error strings), so the raising provider is not always mapped
to its exception message. -/
theorem C4_counterexample :
    (fetchAll (fun _ => FetchOutcome.raised "") "confidence" [exA] true
      ["title"]).result.errors = [] ∧
    dictLookup (fetchAll (fun _ => FetchOutcome.raised "") "confidence" [exA] true
      ["title"]).result.errors exA.name = none := by
  constructor
  · decide
  · decide

def c4Env : Provider → FetchOutcome := fun p =>
  if p.name == "net1" then FetchOutcome.raised "boom"
  else FetchOutcome.ok
    { provider := p.name, success := true, fields := [], confidence := [] }

/-- Concrete instance for C4: a network provider raising "boom" is recorded
in errors and does not change fields, sources or conflicts. -/
theorem C4_batch_isolation_witness :
    (fetchAll c4Env "confidence" ([exA] ++ exNet1 :: []) true ["title"]).result.fields
      = (fetchAll c4Env "confidence" ([exA] ++ []) true ["title"]).result.fields ∧
    (fetchAll c4Env "confidence" ([exA] ++ exNet1 :: []) true ["title"]).result.sources
      = (fetchAll c4Env "confidence" ([exA] ++ []) true ["title"]).result.sources ∧
    (fetchAll c4Env "confidence" ([exA] ++ exNet1 :: []) true
        ["title"]).result.conflicts
      = (fetchAll c4Env "confidence" ([exA] ++ []) true ["title"]).result.conflicts ∧
    dictLookup (fetchAll c4Env "confidence" ([exA] ++ exNet1 :: []) true
      ["title"]).result.errors exNet1.name = some "boom" :=
  C4_batch_isolation c4Env "confidence" [exA] [] exNet1 "boom" true ["title"]
    rfl (by decide) (Or.inr rfl) (by decide)
    (by
      intro q hq r hr
      rcases List.mem_cons.mp hq with rfl | hq2
      · have h2 : FetchOutcome.ok
            ({ provider := "alpha", success := true } : ProviderResult)
            = FetchOutcome.ok r := hr
        injection h2 with h3
        rw [← h3]
        rfl
      · rcases List.mem_cons.mp hq2 with rfl | hq3
        · have h2 : FetchOutcome.raised "boom" = FetchOutcome.ok r := hr
          exact absurd h2 (by simp)
        · exact absurd hq3 (List.not_mem_nil q))
    (by decide)
